import Mathlib

/-!
# pkg/lifecycle: Resource, Reference, References

A shallow embedding of `pkg/lifecycle/resource.go`.

Pointers are addresses: a `*Resource` is an address into `World.resources`
(every address holds a `Resource`, zero-valued until used), a `*Reference`
is an index into `World.refs` (an address that holds no `Reference` behaves as
the nil pointer), a `chan struct{}` is an index into `World.chans`.
A call either returns (`Except.ok`) or does not return (`Except.error`):
it panics, dies on a fatal runtime error, or waits on a lock that is held.
-/

namespace Lifecycle

/-! ## Data model -/

/-- Reasons why a call does not return normally. -/
inductive Fault
  | nilDeref          -- run-time panic: nil pointer dereference
  | unlockOfUnlocked  -- fatal error: Unlock or RUnlock of an unlocked mutex
  | closeOfClosed     -- run-time panic: close of a nil or closed channel
  | blocked           -- the caller waits on a lock that is held
  | misuse            -- a step that is not available: ruled out by the documented
                      -- single-controller discipline, or no such call is under way
  deriving DecidableEq, Repr

/-- Modelled from the spec: the error constructor `resourceClosed()` is not in
the source file; the spec says there is exactly one error kind,
`ResourceClosed`. -/
inductive Error
  | resourceClosed
  deriving DecidableEq, Repr

/-- The state of a `sync.Mutex`. -/
structure Mutex where
  locked : Bool
  deriving DecidableEq, Repr

/-- The state of a `sync.RWMutex`: how many read locks are held, whether the write
lock is held, and whether a `Lock` call has announced itself and waits for the
read locks to be released. -/
structure RWMutex where
  readers : Nat
  writer : Bool
  pending : Bool
  deriving DecidableEq, Repr

/-- The `Resource` struct of resource.go; `ch` is nil (`none`) or a channel of the
channel heap. -/
structure Resource where
  sem : RWMutex
  mu : Mutex
  ch : Option Nat
  deriving DecidableEq, Repr

/-- The `Reference` struct of resource.go; `res` is nil (`none`) or the address of
a `Resource`. -/
structure Reference where
  res : Option Nat
  id : Nat
  deriving DecidableEq, Repr

/-- Modelled from the spec: the leak registry `live` (its `track` and `untrack`)
is not in the source file. The spec gives `track(hold) -> trackedHandle` and
`untrack(trackedHandle)`, no-ops for the protocol; the model keeps the list of
calls made to the registry so that they can be counted. -/
inductive LiveCall
  | track (r : Nat)
  | untrack (r : Nat)
  deriving DecidableEq, Repr

/-- The memory the package works on. -/
structure World where
  chans : List Bool           -- channel heap: for each channel, whether it is closed
  resources : Nat → Resource  -- the Resource at each address
  refs : List Reference       -- the References allocated so far
  live : List LiveCall        -- calls received by the leak registry, oldest first

/-- The zero value of `Resource`. -/
def Resource.zero : Resource := ⟨⟨0, false, false⟩, ⟨false⟩, none⟩

/-- The memory at program start: every Resource is the zero value, nothing else is
allocated. -/
def World.init : World := ⟨[], fun _ => Resource.zero, [], []⟩

/-! ## sync.Mutex, sync.RWMutex, channels -/

/-- Lock of `sync.Mutex`: waits while the mutex is held. -/
def Mutex.Lock (m : Mutex) : Except Fault Mutex :=
  if m.locked then .error .blocked else .ok ⟨true⟩

/-- Unlock of `sync.Mutex`: a fatal error when the mutex is not held. -/
def Mutex.Unlock (m : Mutex) : Except Fault Mutex :=
  if m.locked then .ok ⟨false⟩ else .error .unlockOfUnlocked

/-- RLock of `sync.RWMutex`: waits while the write lock is held, and also while a
`Lock` call is waiting for it ("a blocked Lock call excludes new readers from
acquiring the lock"). -/
def RWMutex.RLock (m : RWMutex) : Except Fault RWMutex :=
  if m.writer || m.pending then .error .blocked else .ok { m with readers := m.readers + 1 }

/-- RUnlock of `sync.RWMutex`: a fatal error when no read lock is held. -/
def RWMutex.RUnlock (m : RWMutex) : Except Fault RWMutex :=
  if m.readers = 0 then .error .unlockOfUnlocked else .ok { m with readers := m.readers - 1 }

/-- Lock of `sync.RWMutex`: waits while any read lock or the write lock is held; a
call that gets the lock, at once or after waiting, is no longer waiting. -/
def RWMutex.Lock (m : RWMutex) : Except Fault RWMutex :=
  if m.writer || m.readers != 0 then .error .blocked
  else .ok { m with writer := true, pending := false }

/-- The start of a `Lock` call that finds read locks held: it announces itself, after
which `RLock` calls wait, and parks until the read locks are released. When no
read lock is held `Lock` does not park. -/
def RWMutex.LockWait (m : RWMutex) : Except Fault RWMutex :=
  if m.writer || m.readers = 0 then .error .misuse else .ok { m with pending := true }

/-- Unlock of `sync.RWMutex`: a fatal error when the write lock is not held. -/
def RWMutex.Unlock (m : RWMutex) : Except Fault RWMutex :=
  if m.writer then .ok { m with writer := false } else .error .unlockOfUnlocked

/-- Store a Resource value at address `p`. -/
def World.setRes (w : World) (p : Nat) (r : Resource) : World :=
  { w with resources := Function.update w.resources p r }

/-- The statement `res.mu.Lock()`. -/
def muLock (w : World) (p : Nat) : Except Fault World := do
  let m ← (w.resources p).mu.Lock
  return w.setRes p { w.resources p with mu := m }

/-- The statement `res.mu.Unlock()`. -/
def muUnlock (w : World) (p : Nat) : Except Fault World := do
  let m ← (w.resources p).mu.Unlock
  return w.setRes p { w.resources p with mu := m }

/-- The statement `res.sem.RLock()`. -/
def semRLock (w : World) (p : Nat) : Except Fault World := do
  let m ← (w.resources p).sem.RLock
  return w.setRes p { w.resources p with sem := m }

/-- The statement `res.sem.RUnlock()`. -/
def semRUnlock (w : World) (p : Nat) : Except Fault World := do
  let m ← (w.resources p).sem.RUnlock
  return w.setRes p { w.resources p with sem := m }

/-- The statement `res.sem.Lock()`. -/
def semLock (w : World) (p : Nat) : Except Fault World := do
  let m ← (w.resources p).sem.Lock
  return w.setRes p { w.resources p with sem := m }

/-- The statement `res.sem.Lock()` up to the point where it parks. -/
def semLockWait (w : World) (p : Nat) : Except Fault World := do
  let m ← (w.resources p).sem.LockWait
  return w.setRes p { w.resources p with sem := m }

/-- The statement `res.sem.Unlock()`. -/
def semUnlock (w : World) (p : Nat) : Except Fault World := do
  let m ← (w.resources p).sem.Unlock
  return w.setRes p { w.resources p with sem := m }

/-- The expression `make(chan struct{})`: a fresh, open channel. -/
def makeChan (w : World) : World × Nat :=
  ({ w with chans := w.chans ++ [false] }, w.chans.length)

/-- The statement `close(c)` on a non-nil channel: panics when `c` is already
closed. -/
def closeChan (w : World) (c : Nat) : Except Fault World :=
  match w.chans[c]? with
  | some false => .ok { w with chans := w.chans.set c true }
  | _ => .error .closeOfClosed

/-- Modelled from the spec: `live.track(r)`, absent from the source file; it
records the hold and hands the same hold back. -/
def liveTrack (w : World) (r : Nat) : World × Nat :=
  ({ w with live := w.live ++ [.track r] }, r)

/-- Modelled from the spec: `live.untrack(r)`, absent from the source file; it
records that the hold is gone. -/
def liveUntrack (w : World) (r : Nat) : World :=
  { w with live := w.live ++ [.untrack r] }

/-! ## Resource -/

/-- `func (res *Resource) Open()`. -/
def Resource.Open (w : World) (p : Nat) : Except Fault World := do
  let w1 ← muLock w p
  let (w2, c) := makeChan w1
  let w3 := w2.setRes p { w2.resources p with ch := some c }
  muUnlock w3 p

/-- First half of `Close`: the critical section under `mu`, which closes and
clears the signal. -/
def Resource.closePhase1 (w : World) (p : Nat) : Except Fault World := do
  let w1 ← muLock w p
  let w3 ← match (w1.resources p).ch with
    | some c => do
        let w2 ← closeChan w1 c
        pure (w2.setRes p { w2.resources p with ch := none })
    | none => pure w1
  muUnlock w3 p

/-- Second half of `Close`: `res.sem.Lock(); res.sem.Unlock()`. -/
def Resource.closePhase2 (w : World) (p : Nat) : Except Fault World := do
  let w1 ← semLock w p
  semUnlock w1 p

/-- `func (res *Resource) Close()`. -/
def Resource.Close (w : World) (p : Nat) : Except Fault World := do
  let w1 ← Resource.closePhase1 w p
  Resource.closePhase2 w1 p

/-- `func (res *Resource) Opened() bool`. -/
def Resource.Opened (w : World) (p : Nat) : Except Fault (World × Bool) := do
  let w1 ← muLock w p
  let opened := (w1.resources p).ch != none
  let w2 ← muUnlock w1 p
  return (w2, opened)

/-- `func (res *Resource) Acquire() (*Reference, error)`. -/
def Resource.Acquire (w : World) (p : Nat) :
    Except Fault (World × Option Nat × Option Error) := do
  let w1 ← muLock w p
  let w2 ← semRLock w1 p
  if (w2.resources p).ch = none then
    let w3 ← semRUnlock w2 p
    let w4 ← muUnlock w3 p
    return (w4, none, some Error.resourceClosed)
  else
    let w3 ← muUnlock w2 p
    -- &Reference{res: res}
    let r := w3.refs.length
    let w4 := { w3 with refs := w3.refs ++ [⟨some p, 0⟩] }
    let (w5, r5) := liveTrack w4 r
    return (w5, some r5, none)

/-! ## Reference -/

/-- The call `atomic.LoadPointer(addr)` with `addr` the address of `r.res`. -/
def loadRes (w : World) (r : Nat) : Except Fault (Option Nat) :=
  match w.refs[r]? with
  | none => .error .nilDeref
  | some ref => .ok ref.res

/-- The call `atomic.CompareAndSwapPointer(addr, old, new)` with `addr` the address
of `r.res`. -/
def casRes (w : World) (r : Nat) (old new : Option Nat) : Except Fault (World × Bool) :=
  match w.refs[r]? with
  | none => .error .nilDeref
  | some ref =>
    if ref.res = old then
      .ok ({ w with refs := w.refs.set r { ref with res := new } }, true)
    else .ok (w, false)

/-- The `if` statement of `Release`, given the pointer `old` that was loaded. The
Boolean tells whether the compare-and-swap was done and succeeded. -/
def releaseSwap (w : World) (r : Nat) (old : Option Nat) : Except Fault (World × Bool) :=
  match old with
  | none => .ok (w, false)
  | some p => do
    let (w1, swapped) ← casRes w r (some p) none
    if swapped then
      let w2 := liveUntrack w1 r
      let w3 ← semRUnlock w2 p
      return (w3, true)
    else
      return (w1, false)

/-- `func (r *Reference) Release()`. -/
def Reference.Release (w : World) (r : Nat) : Except Fault World := do
  let old ← loadRes w r
  let (w1, _) ← releaseSwap w r old
  return w1

/-- `func (r *Reference) Closing() <-chan struct{}`, the expression `r.res.ch`. -/
def Reference.Closing (w : World) (r : Nat) : Except Fault (Option Nat) :=
  match w.refs[r]? with
  | none => .error .nilDeref
  | some ref =>
    match ref.res with
    | none => .error .nilDeref
    | some p => .ok (w.resources p).ch

/-- `func (r *Reference) Close() error`. -/
def Reference.Close (w : World) (r : Nat) : Except Fault (World × Option Error) := do
  let w1 ← Reference.Release w r
  return (w1, none)

/-! ## References -/

/-- `func (rs References) Release()`. -/
def References.Release (w : World) : List Nat → Except Fault World
  | [] => .ok w
  | r :: rs => do
    let w1 ← Reference.Release w r
    References.Release w1 rs

/-- `func (rs References) Close() error`. -/
def References.Close (w : World) (rs : List Nat) : Except Fault (World × Option Error) := do
  let w1 ← References.Release w rs
  return (w1, none)

/-- No call is inside a critical section of Resource `p`: `mu` is free and the write
lock of `sem` is not held. -/
def Quiet (w : World) (p : Nat) : Prop :=
  (w.resources p).mu.locked = false ∧ (w.resources p).sem.writer = false

/-- No call is inside a critical section of Resource `p` and no `Close` is parked in
`sem.Lock()`: `mu` is free, the write lock of `sem` is not held and no `Lock` call
waits for it. -/
def LocksFree (w : World) (p : Nat) : Prop :=
  (w.resources p).mu.locked = false ∧ (w.resources p).sem.writer = false ∧
    (w.resources p).sem.pending = false

/-! ## Counting -/

/-- The Reference at address `r` is live and its back-reference is Resource `p`. -/
def liveOn (w : World) (r p : Nat) : Bool :=
  match w.refs[r]? with
  | some ref => ref.res == some p
  | none => false

/-- The Reference at address `r` exists and its back-reference is nil. -/
def released (w : World) (r : Nat) : Bool :=
  match w.refs[r]? with
  | some ref => ref.res == none
  | none => false

/-- Number of References whose back-reference is Resource `p`: the outstanding
References of `p`. -/
def liveCount (w : World) (p : Nat) : Nat :=
  w.refs.countP (fun ref => ref.res == some p)

/-- Number of read locks held on the `sem` of Resource `p`. -/
def readers (w : World) (p : Nat) : Nat := (w.resources p).sem.readers

/-- The counting invariant: at every Resource the read locks held on `sem` are as
many as its live References. -/
def CountInv (w : World) : Prop := ∀ p, readers w p = liveCount w p

/-- How many times `live.untrack` was called on the Reference at `r`. -/
def untracks (w : World) (r : Nat) : Nat := w.live.count (LiveCall.untrack r)

/-- Number of distinct members of the slice `rs` that are live with back-reference
`p`. -/
def distinctLive (w : World) (rs : List Nat) (p : Nat) : Nat :=
  rs.dedup.countP (fun r => liveOn w r p)

/-- A state of the step model. -/
structure Sys where
  world : World
  closing : List Nat

/-- The calls of the package, `Close` split in two. -/
inductive Call
  | Open (p : Nat)
  | CloseBegin (p : Nat)
  | CloseWait (p : Nat)
  | CloseReturn (p : Nat)
  | Opened (p : Nat)
  | Acquire (p : Nat)
  | Release (r : Nat)
  | RefClose (r : Nat)
  | RefsRelease (rs : List Nat)
  | RefsClose (rs : List Nat)
  deriving DecidableEq, Repr

/-- One step: the call runs on the current memory. -/
def step (s : Sys) : Call → Except Fault Sys
  | .Open p =>
    if p ∈ s.closing then .error .misuse else do
      let w ← Resource.Open s.world p
      return ⟨w, s.closing⟩
  | .CloseBegin p => do
    let w ← Resource.closePhase1 s.world p
    return ⟨w, p :: s.closing⟩
  | .CloseWait p =>
    if p ∈ s.closing then do
      let w ← semLockWait s.world p
      return ⟨w, s.closing⟩
    else .error .misuse
  | .CloseReturn p =>
    if p ∈ s.closing then do
      let w ← Resource.closePhase2 s.world p
      return ⟨w, s.closing.erase p⟩
    else .error .misuse
  | .Opened p =>
    if p ∈ s.closing then .error .misuse else do
      let (w, _) ← Resource.Opened s.world p
      return ⟨w, s.closing⟩
  | .Acquire p => do
    let (w, _, _) ← Resource.Acquire s.world p
    return ⟨w, s.closing⟩
  | .Release r => do
    let w ← Reference.Release s.world r
    return ⟨w, s.closing⟩
  | .RefClose r => do
    let (w, _) ← Reference.Close s.world r
    return ⟨w, s.closing⟩
  | .RefsRelease rs => do
    let w ← References.Release s.world rs
    return ⟨w, s.closing⟩
  | .RefsClose rs => do
    let (w, _) ← References.Close s.world rs
    return ⟨w, s.closing⟩

/-- Run a sequence of steps. -/
def run (s : Sys) : List Call → Except Fault Sys
  | [] => .ok s
  | c :: cs => do
    let s1 ← step s c
    run s1 cs

/-- The start: zero-valued Resources, no Reference, no `Close` under way. -/
def Sys.init : Sys := ⟨World.init, []⟩

/-- A state is reachable when some sequence of calls leads to it from the start. -/
def Reachable (s : Sys) : Prop := ∃ cs, run Sys.init cs = .ok s

/-! ## Concurrent Release calls on one Reference

Each of the callers runs `Release` in its two atomic steps: the load of the
back-reference, then the `if` statement with the compare-and-swap. -/

/-- Where a caller of `Release` stands. -/
inductive PC
  | start
  | loaded (old : Option Nat)
  | done (swapped : Bool)
  deriving DecidableEq, Repr

/-- The memory together with the callers of `Release`. -/
structure Race where
  world : World
  pcs : List PC

/-- Caller `t` takes its next atomic step of `Release` on the Reference at `r`; a
caller that has returned, or a `t` that names no caller, does nothing. -/
def raceStep (r : Nat) (c : Race) (t : Nat) : Except Fault Race :=
  match c.pcs[t]? with
  | some .start => do
    let old ← loadRes c.world r
    return ⟨c.world, c.pcs.set t (.loaded old)⟩
  | some (.loaded old) => do
    let (w, swapped) ← releaseSwap c.world r old
    return ⟨w, c.pcs.set t (.done swapped)⟩
  | _ => .ok c

/-- Run the callers in the order given by the schedule. -/
def raceRun (r : Nat) (c : Race) : List Nat → Except Fault Race
  | [] => .ok c
  | t :: ts => do
    let c1 ← raceStep r c t
    raceRun r c1 ts

/-- The start of a race: `n` callers, none has begun. -/
def Race.init (w : World) (n : Nat) : Race := ⟨w, List.replicate n PC.start⟩

/-- Number of callers whose compare-and-swap succeeded. -/
def Race.swaps (c : Race) : Nat := c.pcs.count (PC.done true)

/-- Number of callers that have returned. -/
def Race.returned (c : Race) : Nat :=
  c.pcs.countP (fun pc => pc matches PC.done _)

/-- How far a caller is: 0 before the load, 1 after it, 2 once it has returned. -/
def PC.rank : PC → Nat
  | .start => 0
  | .loaded _ => 1
  | .done _ => 2

/-- The rank of caller `t`; a `t` that names no caller counts as returned. -/
def Race.rankAt (c : Race) (t : Nat) : Nat :=
  match c.pcs[t]? with
  | some pc => pc.rank
  | none => 2

/-- What every step of a race on a Reference live on Resource `p` keeps true, with
`w0` the memory at the start and `w1` the memory after one `Release`: either no
compare-and-swap has been done, the memory is `w0` and every caller is before or
just after its load of the live pointer; or the memory is `w1` and exactly one
compare-and-swap has succeeded. -/
def RaceInv (w0 w1 : World) (p n : Nat) (c : Race) : Prop :=
  c.pcs.length = n ∧
  ((c.world = w0 ∧ ∀ pc ∈ c.pcs, pc = PC.start ∨ pc = PC.loaded (some p)) ∨
   (c.world = w1 ∧ c.swaps = 1))

/-! ## An open/close cycle -/

/-- Call `Acquire` on Resource `p` `n` times in a row and collect what each call
returned. -/
def acquireN (w : World) (p : Nat) : Nat → Except Fault (World × List (Option Nat × Option Error))
  | 0 => .ok (w, [])
  | n + 1 => do
    let (w1, r, e) ← Resource.Acquire w p
    let (w2, out) ← acquireN w1 p n
    return (w2, (r, e) :: out)

/-- What a cycle lets its caller see. -/
structure CycleView where
  openedAfterOpen : Bool
  acquired : List (Option Nat × Option Error)
  openedAfterClose : Bool
  deriving DecidableEq, Repr

/-- The first part of a cycle: `Open()`, `Opened()`, then `n` calls of `Acquire()`. -/
def openAcquire (w : World) (p n : Nat) :
    Except Fault (World × Bool × List (Option Nat × Option Error)) := do
  let w1 ← Resource.Open w p
  let (w2, o) ← Resource.Opened w1 p
  let (w3, out) ← acquireN w2 p n
  return (w3, o, out)

/-- One cycle on Resource `p`: `Open()`, `n` calls of `Acquire()`, the release of the
References they returned, `Close()`; `Opened()` is asked after `Open` and after
`Close`. -/
def cycle (w : World) (p n : Nat) : Except Fault (World × CycleView) := do
  let (w3, o1, out) ← openAcquire w p n
  let w4 ← References.Release w3 (out.filterMap (fun x => x.1))
  let w5 ← Resource.Close w4 p
  let (w6, o2) ← Resource.Opened w5 p
  return (w6, ⟨o1, out, o2⟩)

/-- Channel discipline: the signal of a Resource, when present, is an open channel
that no other Resource uses. -/
def ChanInv (w : World) : Prop :=
  (∀ p c, (w.resources p).ch = some c → w.chans[c]? = some false) ∧
  (∀ p q c, (w.resources p).ch = some c → (w.resources q).ch = some c → p = q)

/-- What every call keeps true of the memory. -/
def World.Inv (w : World) : Prop :=
  CountInv w ∧ (∀ p, Quiet w p) ∧ ChanInv w

/-- What every step keeps true: the memory invariant, a Resource whose `Close` is
under way has no signal, and a `Lock` call waits on `sem` only for a `Close` that
is under way. -/
def Sys.Inv (s : Sys) : Prop :=
  s.world.Inv ∧ (∀ p ∈ s.closing, (s.world.resources p).ch = none) ∧
    ∀ p, (s.world.resources p).sem.pending = true → p ∈ s.closing

/-- The Reference at address `r` exists and is live: its back-reference is not nil. -/
def isLive (w : World) (r : Nat) : Bool :=
  match w.refs[r]? with
  | some ref => ref.res.isSome
  | none => false

/-- Resource `p` is closed and drained: it has no signal, no read lock is held on
its `sem` and no `Lock` call waits on it. -/
def Drained (w : World) (p : Nat) : Prop :=
  (w.resources p).ch = none ∧ (w.resources p).sem.pending = false ∧ readers w p = 0

/-! ## Example states -/

/-- The state the calls lead to from the start (the start itself when one of them
does not return). -/
def stateAfter (calls : List Call) : Sys :=
  match run Sys.init calls with
  | .ok s => s
  | .error _ => Sys.init

/-- Resource 0 is open and Reference 0 is live. -/
def exHeld : Sys := stateAfter [.Open 0, .Acquire 0]

/-- Resource 0 has a `Close` under way that has cleared the signal and has not yet
called `sem.Lock()`; Reference 0 is live. -/
def exDraining : Sys := stateAfter [.Open 0, .Acquire 0, .CloseBegin 0]

/-- Resource 0 has a `Close` parked in `sem.Lock()`, waiting for Reference 0. -/
def exParked : Sys := stateAfter [.Open 0, .Acquire 0, .CloseBegin 0, .CloseWait 0]

/-- Resource 0 is open and Reference 0 has been released. -/
def exReleased : Sys := stateAfter [.Open 0, .Acquire 0, .Release 0]

/-- Resource 0 has a `Close` under way and nothing to wait for. -/
def exDrained : Sys := stateAfter [.Open 0, .Acquire 0, .CloseBegin 0, .Release 0]

/-- Resources 0 and 1 are open; References 1 (on Resource 1) and 2 (on Resource 0)
are live, Reference 0 (once on Resource 0) has been released. -/
def exGroup : Sys :=
  stateAfter [.Open 0, .Open 1, .Acquire 0, .Acquire 1, .Acquire 0, .Release 0]

/-! ## Proofs -/

theorem World.setRes_self (w : World) (p : Nat) : w.setRes p (w.resources p) = w := by
  cases w
  simp [World.setRes]

theorem World.setRes_setRes (w : World) (p : Nat) (a b : Resource) :
    (w.setRes p a).setRes p b = w.setRes p b := by
  cases w
  simp [World.setRes]

@[simp] theorem World.setRes_resources_same (w : World) (p : Nat) (a : Resource) :
    (w.setRes p a).resources p = a := by
  simp [World.setRes]

theorem World.setRes_resources_ne (w : World) (p q : Nat) (a : Resource) (h : q ≠ p) :
    (w.setRes p a).resources q = w.resources q := by
  simp [World.setRes, Function.update_noteq h]

@[simp] theorem World.setRes_refs (w : World) (p : Nat) (a : Resource) :
    (w.setRes p a).refs = w.refs := rfl

@[simp] theorem World.setRes_chans (w : World) (p : Nat) (a : Resource) :
    (w.setRes p a).chans = w.chans := rfl

@[simp] theorem World.setRes_live (w : World) (p : Nat) (a : Resource) :
    (w.setRes p a).live = w.live := rfl

theorem Acquire_closed_eq (w : World) (p : Nat) (hfree : LocksFree w p)
    (hch : (w.resources p).ch = none) :
    Resource.Acquire w p = .ok (w, none, some Error.resourceClosed) := by
  obtain ⟨hmu, hwr, hpd⟩ := hfree
  have hres : w.resources p
      = ⟨⟨(w.resources p).sem.readers, false, false⟩, ⟨false⟩, none⟩ := by
    rcases hr : w.resources p with ⟨⟨n, wr, pd⟩, ⟨l⟩, c⟩
    rw [hr] at hmu hwr hpd hch
    simp at hmu hwr hpd hch
    simp [hmu, hwr, hpd, hch]
  simp [Resource.Acquire, muLock, semRLock, semRUnlock, muUnlock, Mutex.Lock, Mutex.Unlock,
    RWMutex.RLock, RWMutex.RUnlock, hmu, hwr, hpd, hch, bind, Except.bind, pure, Except.pure,
    World.setRes_setRes]
  rw [← hres]
  exact World.setRes_self w p

/-! ### What each call computes -/

theorem Open_eq (w : World) (p : Nat) (hmu : (w.resources p).mu.locked = false) :
    Resource.Open w p = .ok ⟨w.chans ++ [false],
      Function.update w.resources p { w.resources p with ch := some w.chans.length },
      w.refs, w.live⟩ := by
  rcases hr : w.resources p with ⟨sem, ⟨l⟩, c⟩
  rw [hr] at hmu
  simp at hmu
  subst hmu
  simp [Resource.Open, muLock, muUnlock, makeChan, Mutex.Lock, Mutex.Unlock, hr, bind,
    Except.bind, pure, Except.pure, World.setRes]

theorem closePhase1_none (w : World) (p : Nat) (hmu : (w.resources p).mu.locked = false)
    (hch : (w.resources p).ch = none) : Resource.closePhase1 w p = .ok w := by
  rcases hr : w.resources p with ⟨sem, ⟨l⟩, c⟩
  rw [hr] at hmu hch
  simp at hmu hch
  subst hmu hch
  simp [Resource.closePhase1, muLock, muUnlock, Mutex.Lock, Mutex.Unlock, hr, bind,
    Except.bind, pure, Except.pure, World.setRes_setRes]
  rw [← hr]
  exact World.setRes_self w p

theorem closePhase1_some (w : World) (p c : Nat) (hmu : (w.resources p).mu.locked = false)
    (hch : (w.resources p).ch = some c) (hc : w.chans[c]? = some false) :
    Resource.closePhase1 w p = .ok ⟨w.chans.set c true,
      Function.update w.resources p { w.resources p with ch := none }, w.refs, w.live⟩ := by
  rcases hr : w.resources p with ⟨sem, ⟨l⟩, c0⟩
  rw [hr] at hmu hch
  simp at hmu hch
  subst hmu hch
  simp [Resource.closePhase1, muLock, muUnlock, closeChan, Mutex.Lock, Mutex.Unlock, hr, hc,
    bind, Except.bind, pure, Except.pure, World.setRes]

theorem closePhase2_eq (w : World) (p : Nat) (hwr : (w.resources p).sem.writer = false) :
    Resource.closePhase2 w p
      = if readers w p = 0 then
          .ok ⟨w.chans,
            Function.update w.resources p { w.resources p with sem := ⟨0, false, false⟩ },
            w.refs, w.live⟩
        else .error .blocked := by
  rcases hr : w.resources p with ⟨⟨n, wr, pd⟩, mu, c⟩
  rw [hr] at hwr
  simp at hwr
  subst hwr
  by_cases hn : n = 0
  · subst hn
    simp [Resource.closePhase2, semLock, semUnlock, RWMutex.Lock, RWMutex.Unlock, hr, readers,
      bind, Except.bind, pure, Except.pure, World.setRes]
  · simp [Resource.closePhase2, semLock, semUnlock, RWMutex.Lock, RWMutex.Unlock, hr, readers,
      bind, Except.bind, pure, Except.pure, hn]

theorem closePhase2_free (w : World) (p : Nat) (h : LocksFree w p) :
    Resource.closePhase2 w p = if readers w p = 0 then .ok w else .error .blocked := by
  obtain ⟨-, hwr, hpd⟩ := h
  rw [closePhase2_eq w p hwr]
  by_cases hn : readers w p = 0
  · simp only [hn, if_true]
    congr 1
    have hres : ({ w.resources p with sem := ⟨0, false, false⟩ } : Resource) = w.resources p := by
      rcases hr : w.resources p with ⟨⟨n, wr, pd⟩, mu, c⟩
      simp only [readers] at hn
      rw [hr] at hwr hpd hn
      simp at hwr hpd hn
      simp [hwr, hpd, hn]
    rw [hres]
    cases w
    simp
  · simp only [hn, if_false]

theorem semLockWait_eq (w : World) (p : Nat) (hwr : (w.resources p).sem.writer = false) :
    semLockWait w p
      = if readers w p = 0 then .error .misuse
        else .ok ⟨w.chans,
          Function.update w.resources p
            { w.resources p with sem := ⟨(w.resources p).sem.readers, false, true⟩ },
          w.refs, w.live⟩ := by
  rcases hr : w.resources p with ⟨⟨n, wr, pd⟩, mu, c⟩
  rw [hr] at hwr
  simp at hwr
  subst hwr
  by_cases hn : n = 0
  · simp [semLockWait, RWMutex.LockWait, hr, readers, hn, bind, Except.bind]
  · simp [semLockWait, RWMutex.LockWait, hr, readers, hn, bind, Except.bind, pure, Except.pure,
      World.setRes]

theorem Opened_eq (w : World) (p : Nat) (hmu : (w.resources p).mu.locked = false) :
    Resource.Opened w p = .ok (w, (w.resources p).ch != none) := by
  rcases hr : w.resources p with ⟨sem, ⟨l⟩, c⟩
  rw [hr] at hmu
  simp at hmu
  subst hmu
  simp [Resource.Opened, muLock, muUnlock, Mutex.Lock, Mutex.Unlock, hr, bind,
    Except.bind, pure, Except.pure, World.setRes_setRes]
  rw [← hr]
  exact World.setRes_self w p

theorem Acquire_open_eq (w : World) (p c : Nat) (h : LocksFree w p)
    (hch : (w.resources p).ch = some c) :
    Resource.Acquire w p = .ok (⟨w.chans,
      Function.update w.resources p
        { w.resources p with sem := ⟨(w.resources p).sem.readers + 1, false, false⟩ },
      w.refs ++ [⟨some p, 0⟩], w.live ++ [LiveCall.track w.refs.length]⟩,
      some w.refs.length, none) := by
  obtain ⟨hmu, hwr, hpd⟩ := h
  rcases hr : w.resources p with ⟨⟨n, wr, pd⟩, ⟨l⟩, c0⟩
  rw [hr] at hmu hwr hpd hch
  simp at hmu hwr hpd hch
  subst hmu hwr hpd hch
  simp [Resource.Acquire, muLock, semRLock, muUnlock, liveTrack, Mutex.Lock, Mutex.Unlock,
    RWMutex.RLock, hr, bind, Except.bind, pure, Except.pure, World.setRes]

theorem Acquire_waits_eq (w : World) (p : Nat) (hmu : (w.resources p).mu.locked = false)
    (hpd : (w.resources p).sem.pending = true) :
    Resource.Acquire w p = .error .blocked := by
  rcases hr : w.resources p with ⟨⟨n, wr, pd⟩, ⟨l⟩, c0⟩
  rw [hr] at hmu hpd
  simp at hmu hpd
  subst hmu hpd
  simp [Resource.Acquire, muLock, semRLock, Mutex.Lock, RWMutex.RLock, hr, bind, Except.bind,
    pure, Except.pure]

theorem Release_nil (w : World) (r : Nat) (h : w.refs[r]? = none) :
    Reference.Release w r = .error .nilDeref := by
  simp [Reference.Release, loadRes, h, bind, Except.bind]

theorem Release_released (w : World) (r : Nat) (ref : Reference) (h : w.refs[r]? = some ref)
    (hres : ref.res = none) : Reference.Release w r = .ok w := by
  simp [Reference.Release, loadRes, releaseSwap, h, hres, bind, Except.bind, pure, Except.pure]

theorem Release_live (w : World) (r p : Nat) (ref : Reference) (h : w.refs[r]? = some ref)
    (hres : ref.res = some p) :
    Reference.Release w r =
      if readers w p = 0 then .error .unlockOfUnlocked
      else .ok ⟨w.chans,
        Function.update w.resources p
          { w.resources p with sem := ⟨(w.resources p).sem.readers - 1, (w.resources p).sem.writer,
            (w.resources p).sem.pending⟩ },
        w.refs.set r { ref with res := none }, w.live ++ [LiveCall.untrack r]⟩ := by
  by_cases hn : readers w p = 0
  · have hn' : (w.resources p).sem.readers = 0 := hn
    simp [Reference.Release, loadRes, releaseSwap, casRes, liveUntrack, semRUnlock,
      RWMutex.RUnlock, h, hres, hn, hn', bind, Except.bind, pure, Except.pure]
  · have hn' : ¬ (w.resources p).sem.readers = 0 := hn
    simp [Reference.Release, loadRes, releaseSwap, casRes, liveUntrack, semRUnlock,
      RWMutex.RUnlock, h, hres, hn, hn', bind, Except.bind, pure, Except.pure, World.setRes]

/-! ### Counting lemmas -/

theorem countP_set_add {α : Type} (f : α → Bool) (l : List α) (i : Nat) (a b : α)
    (h : l[i]? = some a) :
    (l.set i b).countP f + (if f a then 1 else 0) = l.countP f + (if f b then 1 else 0) := by
  induction l generalizing i with
  | nil => simp at h
  | cons x xs ih =>
    cases i with
    | zero =>
      simp at h
      subst h
      simp [List.countP_cons]
      omega
    | succ j =>
      simp at h
      have := ih j h
      simp [List.countP_cons]
      omega

theorem liveCount_push (w : World) (ch : List Bool) (rs : Nat → Resource) (lv : List LiveCall)
    (p q : Nat) :
    liveCount ⟨ch, rs, w.refs ++ [⟨some p, 0⟩], lv⟩ q = liveCount w q + if q = p then 1 else 0 := by
  by_cases h : q = p
  · subst h
    simp [liveCount, List.countP_append]
  · have h' : ¬ p = q := fun e => h e.symm
    simp [liveCount, List.countP_append, h, h']

theorem liveCount_clear (w : World) (ch : List Bool) (rs : Nat → Resource) (lv : List LiveCall)
    (r p q : Nat) (ref : Reference) (h : w.refs[r]? = some ref) (hres : ref.res = some p) :
    liveCount ⟨ch, rs, w.refs.set r { ref with res := none }, lv⟩ q + (if q = p then 1 else 0)
      = liveCount w q := by
  have := countP_set_add (fun x : Reference => x.res == some q) w.refs r ref
    { ref with res := none } h
  by_cases hq : q = p
  · subst hq
    simp [hres] at this
    simp [liveCount]
    omega
  · have hq' : ¬ p = q := fun e => hq e.symm
    simp [hres, hq, hq'] at this
    simp [liveCount, hq]
    omega

theorem liveCount_pos (w : World) (r p : Nat) (ref : Reference) (h : w.refs[r]? = some ref)
    (hres : ref.res = some p) : 0 < liveCount w p := by
  unfold liveCount
  rw [List.countP_pos_iff]
  refine ⟨ref, ?_, by simp [hres]⟩
  exact List.getElem?_mem h

/-! ### The invariant is kept by every call -/

theorem Inv_init : World.init.Inv := by
  refine ⟨?_, ?_, ?_, ?_⟩
  · intro p
    simp [readers, liveCount, World.init, Resource.zero]
  · intro p
    simp [Quiet, World.init, Resource.zero]
  · intro p c h
    simp [World.init, Resource.zero] at h
  · intro p q c h
    simp [World.init, Resource.zero] at h

theorem Inv_Open (w w' : World) (p : Nat) (hinv : w.Inv) (h : Resource.Open w p = .ok w') :
    w'.Inv ∧ (∀ q, q ≠ p → w'.resources q = w.resources q) ∧
      (w'.resources p).sem = (w.resources p).sem := by
  obtain ⟨hcount, hquiet, hopen, huniq⟩ := hinv
  rw [Open_eq w p (hquiet p).1] at h
  injection h with h
  subst h
  refine ⟨⟨?_, ?_, ?_, ?_⟩, ?_, ?_⟩
  · intro q
    have := hcount q
    simp only [readers, liveCount] at this ⊢
    rw [← this]
    by_cases hq : q = p
    · subst hq; simp
    · simp [Function.update_noteq hq]
  · intro q
    have := hquiet q
    simp only [Quiet] at this ⊢
    by_cases hq : q = p
    · subst hq; simpa using this
    · simpa [Function.update_noteq hq] using this
  · intro q c hc
    by_cases hq : q = p
    · subst hq
      simp at hc
      subst hc
      simp
    · simp only [Function.update_noteq hq] at hc
      have h1 := hopen q c hc
      have hlt : c < w.chans.length := by
        by_contra hge
        rw [List.getElem?_eq_none (by omega)] at h1
        simp at h1
      simp only
      rw [List.getElem?_append_left hlt]
      exact h1
  · intro q1 q2 c h1 h2
    have fresh : ∀ q, (w.resources q).ch ≠ some w.chans.length := by
      intro q hq
      have := hopen q _ hq
      simp at this
    by_cases hq1 : q1 = p <;> by_cases hq2 : q2 = p
    · rw [hq1, hq2]
    · subst hq1
      simp [Function.update_noteq hq2] at h1 h2
      subst h1
      exact absurd h2 (fresh q2)
    · subst hq2
      simp [Function.update_noteq hq1] at h1 h2
      subst h2
      exact absurd h1 (fresh q1)
    · simp only [Function.update_noteq hq1] at h1
      simp only [Function.update_noteq hq2] at h2
      exact huniq q1 q2 c h1 h2
  · intro q hq
    simp [Function.update_noteq hq]
  · simp

theorem closePhase1_ok (w : World) (p : Nat) (hinv : w.Inv) :
    ∃ w', Resource.closePhase1 w p = .ok w' := by
  obtain ⟨-, hquiet, hopen, -⟩ := hinv
  cases hch : (w.resources p).ch with
  | none => exact ⟨w, closePhase1_none w p (hquiet p).1 hch⟩
  | some c => exact ⟨_, closePhase1_some w p c (hquiet p).1 hch (hopen p c hch)⟩

theorem Inv_closePhase1 (w w' : World) (p : Nat) (hinv : w.Inv)
    (h : Resource.closePhase1 w p = .ok w') :
    w'.Inv ∧ (∀ q, q ≠ p → (w'.resources q).ch = (w.resources q).ch) ∧
      (w'.resources p).ch = none ∧ w'.refs = w.refs ∧
      (∀ q, (w'.resources q).sem = (w.resources q).sem) := by
  have hinv0 := hinv
  obtain ⟨hcount, hquiet, hopen, huniq⟩ := hinv
  cases hch : (w.resources p).ch with
  | none =>
    rw [closePhase1_none w p (hquiet p).1 hch] at h
    injection h with h
    subst h
    exact ⟨hinv0, fun _ _ => rfl, hch, rfl, fun _ => rfl⟩
  | some c =>
    rw [closePhase1_some w p c (hquiet p).1 hch (hopen p c hch)] at h
    injection h with h
    subst h
    have hsem : ∀ q, ((⟨w.chans.set c true,
        Function.update w.resources p { w.resources p with ch := none }, w.refs, w.live⟩
        : World).resources q).sem = (w.resources q).sem := by
      intro q
      by_cases hq : q = p
      · subst hq; simp
      · simp [Function.update_noteq hq]
    refine ⟨⟨?_, ?_, ?_, ?_⟩, ?_, ?_, rfl, hsem⟩
    · intro q
      have := hcount q
      simp only [readers] at this ⊢
      rw [hsem q]
      exact this
    · intro q
      have := hquiet q
      simp only [Quiet] at this ⊢
      by_cases hq : q = p
      · subst hq; simpa using this
      · simpa [Function.update_noteq hq] using this
    · intro q c' hc
      by_cases hq : q = p
      · subst hq
        simp at hc
      · simp only [Function.update_noteq hq] at hc
        have hne : c ≠ c' := by
          intro e
          subst e
          exact hq (huniq q p c hc hch)
        simp only
        rw [List.getElem?_set_ne hne]
        exact hopen q c' hc
    · intro q1 q2 c' h1 h2
      by_cases hq1 : q1 = p
      · subst hq1
        simp at h1
      · by_cases hq2 : q2 = p
        · subst hq2
          simp at h2
        · simp only [Function.update_noteq hq1] at h1
          simp only [Function.update_noteq hq2] at h2
          exact huniq q1 q2 c' h1 h2
    · intro q hq
      simp [Function.update_noteq hq]
    · simp

theorem Inv_closePhase2 (w w' : World) (p : Nat) (hinv : w.Inv)
    (h : Resource.closePhase2 w p = .ok w') :
    w'.Inv ∧ readers w p = 0 ∧ (∀ q, q ≠ p → w'.resources q = w.resources q) ∧
      (w'.resources p).ch = (w.resources p).ch ∧ readers w' p = 0 ∧
      (w'.resources p).sem.pending = false ∧ w'.refs = w.refs := by
  obtain ⟨hcount, hquiet, hopen, huniq⟩ := hinv
  rw [closePhase2_eq w p (hquiet p).2] at h
  by_cases hr : readers w p = 0
  · simp only [hr, if_true] at h
    injection h with h
    subst h
    have hc : ∀ q, ((Function.update w.resources p
        { w.resources p with sem := ⟨0, false, false⟩ }) q).ch = (w.resources q).ch := by
      intro q
      by_cases hq : q = p
      · subst hq; simp
      · simp [Function.update_noteq hq]
    refine ⟨⟨?_, ?_, ?_, ?_⟩, hr, ?_, hc p, by simp [readers], by simp, rfl⟩
    · intro q
      have := hcount q
      simp only [readers, liveCount] at this hr ⊢
      by_cases hq : q = p
      · subst hq
        simp
        omega
      · simpa [Function.update_noteq hq] using this
    · intro q
      have := hquiet q
      simp only [Quiet] at this ⊢
      by_cases hq : q = p
      · subst hq; simpa using this.1
      · simpa [Function.update_noteq hq] using this
    · intro q c' h'
      rw [hc q] at h'
      exact hopen q c' h'
    · intro q1 q2 c' h1 h2
      rw [hc q1] at h1
      rw [hc q2] at h2
      exact huniq q1 q2 c' h1 h2
    · intro q hq
      simp [Function.update_noteq hq]
  · simp [hr] at h

theorem Inv_semLockWait (w w' : World) (p : Nat) (hinv : w.Inv)
    (h : semLockWait w p = .ok w') :
    w'.Inv ∧ readers w p ≠ 0 ∧ (∀ q, q ≠ p → w'.resources q = w.resources q) ∧
      (w'.resources p).ch = (w.resources p).ch := by
  obtain ⟨hcount, hquiet, hopen, huniq⟩ := hinv
  rw [semLockWait_eq w p (hquiet p).2] at h
  by_cases hr : readers w p = 0
  · simp [hr] at h
  · simp only [hr, if_false] at h
    injection h with h
    subst h
    have hc : ∀ q, ((Function.update w.resources p
        { w.resources p with sem := ⟨(w.resources p).sem.readers, false, true⟩ }) q).ch
        = (w.resources q).ch := by
      intro q
      by_cases hq : q = p
      · subst hq; simp
      · simp [Function.update_noteq hq]
    refine ⟨⟨?_, ?_, ?_, ?_⟩, hr, ?_, hc p⟩
    · intro q
      have := hcount q
      simp only [readers, liveCount] at this ⊢
      by_cases hq : q = p
      · subst hq
        simpa using this
      · simpa [Function.update_noteq hq] using this
    · intro q
      have := hquiet q
      simp only [Quiet] at this ⊢
      by_cases hq : q = p
      · subst hq; simpa using this.1
      · simpa [Function.update_noteq hq] using this
    · intro q c' h'
      rw [hc q] at h'
      exact hopen q c' h'
    · intro q1 q2 c' h1 h2
      rw [hc q1] at h1
      rw [hc q2] at h2
      exact huniq q1 q2 c' h1 h2
    · intro q hq
      simp [Function.update_noteq hq]

theorem Inv_Acquire (w w' : World) (p : Nat) (out : Option Nat × Option Error) (hinv : w.Inv)
    (h : Resource.Acquire w p = .ok (w', out)) :
    w'.Inv ∧ (∀ q, (w'.resources q).ch = (w.resources q).ch) ∧
      (∀ q, (w'.resources q).sem.pending = (w.resources q).sem.pending) ∧
      (∀ q, (w.resources q).ch = none → readers w' q ≤ readers w q) := by
  have hinv0 := hinv
  obtain ⟨hcount, hquiet, hopen, huniq⟩ := hinv
  cases hpd : (w.resources p).sem.pending with
  | true =>
    rw [Acquire_waits_eq w p (hquiet p).1 hpd] at h
    cases h
  | false =>
    have hfree : LocksFree w p := ⟨(hquiet p).1, (hquiet p).2, hpd⟩
    cases hch : (w.resources p).ch with
    | none =>
      rw [Acquire_closed_eq w p hfree hch] at h
      injection h with h
      injection h with h1 h2
      subst h1
      exact ⟨hinv0, fun _ => rfl, fun _ => rfl, fun _ _ => le_refl _⟩
    | some c =>
      rw [Acquire_open_eq w p c hfree hch] at h
      injection h with h
      injection h with h1 h2
      subst h1
      have hc : ∀ q, ((Function.update w.resources p
          { w.resources p with sem := ⟨(w.resources p).sem.readers + 1, false, false⟩ }) q).ch
          = (w.resources q).ch := by
        intro q
        by_cases hq : q = p
        · subst hq; simp
        · simp [Function.update_noteq hq]
      refine ⟨⟨?_, ?_, ?_, ?_⟩, hc, ?_, ?_⟩
      · intro q
        rw [liveCount_push, ← hcount q]
        simp only [readers]
        by_cases hq : q = p
        · subst hq; simp
        · simp [Function.update_noteq hq, hq]
      · intro q
        have := hquiet q
        simp only [Quiet] at this ⊢
        by_cases hq : q = p
        · subst hq; simpa using this.1
        · simpa [Function.update_noteq hq] using this
      · intro q c' h'
        rw [hc q] at h'
        exact hopen q c' h'
      · intro q1 q2 c' h1 h2
        rw [hc q1] at h1
        rw [hc q2] at h2
        exact huniq q1 q2 c' h1 h2
      · intro q
        by_cases hq : q = p
        · subst hq; simp [hpd]
        · simp [Function.update_noteq hq]
      · intro q hq0
        have hq : q ≠ p := by
          intro e
          subst e
          rw [hch] at hq0
          cases hq0
        simp [readers, Function.update_noteq hq]

theorem Inv_Release (w w' : World) (r : Nat) (hinv : w.Inv)
    (h : Reference.Release w r = .ok w') :
    w'.Inv ∧ (∀ q, (w'.resources q).ch = (w.resources q).ch) ∧
      (∀ q, (w'.resources q).sem.pending = (w.resources q).sem.pending) ∧
      (∀ q, (w.resources q).ch = none → readers w' q ≤ readers w q) := by
  have hinv0 := hinv
  obtain ⟨hcount, hquiet, hopen, huniq⟩ := hinv
  cases href : w.refs[r]? with
  | none =>
    rw [Release_nil w r href] at h
    cases h
  | some ref =>
    cases hres : ref.res with
    | none =>
      rw [Release_released w r ref href hres] at h
      injection h with h
      subst h
      exact ⟨hinv0, fun _ => rfl, fun _ => rfl, fun _ _ => le_refl _⟩
    | some p =>
      rw [Release_live w r p ref href hres] at h
      split at h
      · cases h
      · injection h with h
        subst h
        have hc : ∀ q, ((Function.update w.resources p
            { w.resources p with
              sem := ⟨(w.resources p).sem.readers - 1, (w.resources p).sem.writer,
                (w.resources p).sem.pending⟩ }) q).ch
            = (w.resources q).ch := by
          intro q
          by_cases hq : q = p
          · subst hq; simp
          · simp [Function.update_noteq hq]
        refine ⟨⟨?_, ?_, ?_, ?_⟩, hc, ?_, ?_⟩
        · intro q
          have h1 := liveCount_clear w w.chans (Function.update w.resources p
            { w.resources p with
              sem := ⟨(w.resources p).sem.readers - 1, (w.resources p).sem.writer,
                (w.resources p).sem.pending⟩ })
            (w.live ++ [LiveCall.untrack r]) r p q ref href hres
          have h2 := hcount q
          have h3 := liveCount_pos w r p ref href hres
          have h4 := hcount p
          simp only [readers] at h2 h4 ⊢
          by_cases hq : q = p
          · subst hq
            simp at h1 ⊢
            omega
          · simp [hq] at h1
            simp [Function.update_noteq hq]
            omega
        · intro q
          have := hquiet q
          simp only [Quiet] at this ⊢
          by_cases hq : q = p
          · subst hq; simpa using this
          · simpa [Function.update_noteq hq] using this
        · intro q c' h'
          rw [hc q] at h'
          exact hopen q c' h'
        · intro q1 q2 c' h1 h2
          rw [hc q1] at h1
          rw [hc q2] at h2
          exact huniq q1 q2 c' h1 h2
        · intro q
          by_cases hq : q = p
          · subst hq; simp
          · simp [Function.update_noteq hq]
        · intro q _
          simp only [readers]
          by_cases hq : q = p
          · subst hq
            simp
          · simp [Function.update_noteq hq]

theorem Inv_RefsRelease (rs : List Nat) (w w' : World) (hinv : w.Inv)
    (h : References.Release w rs = .ok w') :
    w'.Inv ∧ (∀ q, (w'.resources q).ch = (w.resources q).ch) ∧
      (∀ q, (w'.resources q).sem.pending = (w.resources q).sem.pending) ∧
      (∀ q, (w.resources q).ch = none → readers w' q ≤ readers w q) := by
  induction rs generalizing w with
  | nil =>
    simp [References.Release] at h
    subst h
    exact ⟨hinv, fun _ => rfl, fun _ => rfl, fun _ _ => le_refl _⟩
  | cons r rs ih =>
    simp only [References.Release, bind, Except.bind] at h
    cases h1 : Reference.Release w r with
    | error e => rw [h1] at h; cases h
    | ok w1 =>
      rw [h1] at h
      obtain ⟨hi1, hc1, hp1, hr1⟩ := Inv_Release w w1 r hinv h1
      obtain ⟨hi2, hc2, hp2, hr2⟩ := ih w1 hi1 h
      refine ⟨hi2, fun q => (hc2 q).trans (hc1 q), fun q => (hp2 q).trans (hp1 q), ?_⟩
      intro q hq
      exact le_trans (hr2 q ((hc1 q).trans hq)) (hr1 q hq)

/-- Shape shared by `Acquire`, `Release` and the slice calls: the invariant is kept,
no signal and no waiting `Lock` call changes, and a closed Resource gains no read
lock. -/
theorem keeps_of_effect (s : Sys) (w' : World) (hinv : s.Inv) (hi : w'.Inv)
    (hc : ∀ q, (w'.resources q).ch = (s.world.resources q).ch)
    (hp : ∀ q, (w'.resources q).sem.pending = (s.world.resources q).sem.pending)
    (hr : ∀ q, (s.world.resources q).ch = none → readers w' q ≤ readers s.world q) :
    (Sys.mk w' s.closing).Inv ∧ ∀ p, Drained s.world p → Drained w' p := by
  obtain ⟨-, hcl, hpd⟩ := hinv
  refine ⟨⟨hi, fun q hq => (hc q).trans (hcl q hq), fun q hq => hpd q ((hp q).symm.trans hq)⟩, ?_⟩
  rintro p ⟨h1, h2, h3⟩
  refine ⟨(hc p).trans h1, (hp p).trans h2, ?_⟩
  have := hr p h1
  omega

theorem step_spec (s s' : Sys) (c : Call) (hinv : s.Inv) (h : step s c = .ok s') :
    s'.Inv ∧ ∀ p, c ≠ .Open p → Drained s.world p → Drained s'.world p := by
  have hinv0 := hinv
  obtain ⟨hw, hcl, hpd⟩ := hinv
  cases c with
  | Open q =>
    by_cases hq : q ∈ s.closing
    · simp [step, hq] at h
    · simp only [step, hq, if_false, bind, Except.bind] at h
      cases h1 : Resource.Open s.world q with
      | error e => rw [h1] at h; cases h
      | ok w1 =>
        rw [h1] at h
        simp only [pure, Except.pure] at h
        injection h with h
        subst h
        obtain ⟨hi, hother, hsem⟩ := Inv_Open s.world w1 q hw h1
        refine ⟨⟨hi, fun a ha => ?_, fun a ha => ?_⟩, fun p hp hd => ?_⟩
        · have haq : a ≠ q := fun e => hq (e ▸ ha)
          simp only
          rw [hother a haq]
          exact hcl a ha
        · simp only at ha ⊢
          by_cases haq : a = q
          · subst haq
            rw [hsem] at ha
            exact hpd a ha
          · rw [hother a haq] at ha
            exact hpd a ha
        · have hpq : p ≠ q := fun e => hp (by rw [e])
          simp only [Drained, readers] at hd ⊢
          rw [hother p hpq]
          exact hd
  | CloseBegin q =>
    simp only [step, bind, Except.bind] at h
    cases h1 : Resource.closePhase1 s.world q with
    | error e => rw [h1] at h; cases h
    | ok w1 =>
      rw [h1] at h
      simp only [pure, Except.pure] at h
      injection h with h
      subst h
      obtain ⟨hi, hc, hn, -, hsem⟩ := Inv_closePhase1 s.world w1 q hw h1
      refine ⟨⟨hi, fun a ha => ?_, fun a ha => ?_⟩, fun p _ hd => ?_⟩
      · by_cases haq : a = q
        · subst haq; exact hn
        · simp only
          rw [hc a haq]
          simp only [List.mem_cons] at ha
          rcases ha with ha | ha
          · exact absurd ha haq
          · exact hcl a ha
      · simp only at ha ⊢
        rw [hsem a] at ha
        exact List.mem_cons_of_mem _ (hpd a ha)
      · simp only [Drained, readers] at hd ⊢
        rw [hsem p]
        refine ⟨?_, hd.2.1, hd.2.2⟩
        by_cases hpq : p = q
        · subst hpq; exact hn
        · rw [hc p hpq]
          exact hd.1
  | CloseWait q =>
    by_cases hq : q ∈ s.closing
    · simp only [step, hq, if_true, bind, Except.bind] at h
      cases h1 : semLockWait s.world q with
      | error e => rw [h1] at h; cases h
      | ok w1 =>
        rw [h1] at h
        simp only [pure, Except.pure] at h
        injection h with h
        subst h
        obtain ⟨hi, hrd, hother, hch⟩ := Inv_semLockWait s.world w1 q hw h1
        refine ⟨⟨hi, fun a ha => ?_, fun a ha => ?_⟩, fun p _ hd => ?_⟩
        · simp only
          by_cases haq : a = q
          · subst haq
            rw [hch]
            exact hcl a ha
          · rw [hother a haq]
            exact hcl a ha
        · simp only at ha ⊢
          by_cases haq : a = q
          · subst haq; exact hq
          · rw [hother a haq] at ha
            exact hpd a ha
        · have hpq : p ≠ q := by
            intro e
            subst e
            exact hrd hd.2.2
          simp only [Drained, readers] at hd ⊢
          rw [hother p hpq]
          exact hd
    · simp [step, hq] at h
  | CloseReturn q =>
    by_cases hq : q ∈ s.closing
    · simp only [step, hq, if_true, bind, Except.bind] at h
      cases h1 : Resource.closePhase2 s.world q with
      | error e => rw [h1] at h; cases h
      | ok w1 =>
        rw [h1] at h
        simp only [pure, Except.pure] at h
        injection h with h
        subst h
        obtain ⟨hi, -, hother, hch, hrd', hpd', -⟩ := Inv_closePhase2 s.world w1 q hw h1
        refine ⟨⟨hi, fun a ha => ?_, fun a ha => ?_⟩, fun p _ hd => ?_⟩
        · have ha' := List.mem_of_mem_erase ha
          simp only
          by_cases haq : a = q
          · subst haq
            rw [hch]
            exact hcl a ha'
          · rw [hother a haq]
            exact hcl a ha'
        · simp only at ha ⊢
          by_cases haq : a = q
          · subst haq
            rw [hpd'] at ha
            cases ha
          · rw [hother a haq] at ha
            exact (List.mem_erase_of_ne haq).2 (hpd a ha)
        · by_cases hpq : p = q
          · subst hpq
            exact ⟨hch.trans hd.1, hpd', hrd'⟩
          · simp only [Drained, readers] at hd ⊢
            rw [hother p hpq]
            exact hd
    · simp [step, hq] at h
  | Opened q =>
    by_cases hq : q ∈ s.closing
    · simp [step, hq] at h
    · simp only [step, hq, if_false, bind, Except.bind] at h
      rw [Opened_eq s.world q (hw.2.1 q).1] at h
      simp only [pure, Except.pure] at h
      injection h with h
      subst h
      exact ⟨hinv0, fun _ _ hd => hd⟩
  | Acquire q =>
    simp only [step, bind, Except.bind] at h
    cases h1 : Resource.Acquire s.world q with
    | error e => rw [h1] at h; cases h
    | ok res =>
      obtain ⟨w1, out⟩ := res
      rw [h1] at h
      simp only [pure, Except.pure] at h
      injection h with h
      subst h
      obtain ⟨hi, hc, hp, hr⟩ := Inv_Acquire s.world w1 q out hw h1
      obtain ⟨k1, k2⟩ := keeps_of_effect s w1 hinv0 hi hc hp hr
      exact ⟨k1, fun p _ hd => k2 p hd⟩
  | Release r =>
    simp only [step, bind, Except.bind] at h
    cases h1 : Reference.Release s.world r with
    | error e => rw [h1] at h; cases h
    | ok w1 =>
      rw [h1] at h
      simp only [pure, Except.pure] at h
      injection h with h
      subst h
      obtain ⟨hi, hc, hp, hr⟩ := Inv_Release s.world w1 r hw h1
      obtain ⟨k1, k2⟩ := keeps_of_effect s w1 hinv0 hi hc hp hr
      exact ⟨k1, fun p _ hd => k2 p hd⟩
  | RefClose r =>
    simp only [step, Reference.Close, bind, Except.bind] at h
    cases h1 : Reference.Release s.world r with
    | error e => rw [h1] at h; cases h
    | ok w1 =>
      rw [h1] at h
      simp only [pure, Except.pure] at h
      injection h with h
      subst h
      obtain ⟨hi, hc, hp, hr⟩ := Inv_Release s.world w1 r hw h1
      obtain ⟨k1, k2⟩ := keeps_of_effect s w1 hinv0 hi hc hp hr
      exact ⟨k1, fun p _ hd => k2 p hd⟩
  | RefsRelease rs =>
    simp only [step, bind, Except.bind] at h
    cases h1 : References.Release s.world rs with
    | error e => rw [h1] at h; cases h
    | ok w1 =>
      rw [h1] at h
      simp only [pure, Except.pure] at h
      injection h with h
      subst h
      obtain ⟨hi, hc, hp, hr⟩ := Inv_RefsRelease rs s.world w1 hw h1
      obtain ⟨k1, k2⟩ := keeps_of_effect s w1 hinv0 hi hc hp hr
      exact ⟨k1, fun p _ hd => k2 p hd⟩
  | RefsClose rs =>
    simp only [step, References.Close, bind, Except.bind] at h
    cases h1 : References.Release s.world rs with
    | error e => rw [h1] at h; cases h
    | ok w1 =>
      rw [h1] at h
      simp only [pure, Except.pure] at h
      injection h with h
      subst h
      obtain ⟨hi, hc, hp, hr⟩ := Inv_RefsRelease rs s.world w1 hw h1
      obtain ⟨k1, k2⟩ := keeps_of_effect s w1 hinv0 hi hc hp hr
      exact ⟨k1, fun p _ hd => k2 p hd⟩

theorem Inv_step (s s' : Sys) (c : Call) (hinv : s.Inv) (h : step s c = .ok s') : s'.Inv :=
  (step_spec s s' c hinv h).1

theorem closeReturn_world (s s' : Sys) (p : Nat) (hinv : s.Inv)
    (h : step s (.CloseReturn p) = .ok s') :
    p ∈ s.closing ∧ readers s.world p = 0 ∧ s'.world.refs = s.world.refs ∧
      Drained s'.world p := by
  by_cases hp : p ∈ s.closing
  · simp only [step, hp, if_true, bind, Except.bind] at h
    cases h1 : Resource.closePhase2 s.world p with
    | error e => rw [h1] at h; cases h
    | ok w1 =>
      rw [h1] at h
      simp only [pure, Except.pure] at h
      injection h with h
      subst h
      obtain ⟨-, hrd, -, hch, hrd', hpd', hrefs⟩ := Inv_closePhase2 s.world w1 p hinv.1 h1
      exact ⟨hp, hrd, hrefs, hch.trans (hinv.2.1 p hp), hpd', hrd'⟩
  · simp [step, hp] at h

theorem Inv_run (cs : List Call) (s s' : Sys) (hinv : s.Inv) (h : run s cs = .ok s') :
    s'.Inv := by
  induction cs generalizing s with
  | nil =>
    simp only [run] at h
    injection h with h
    exact h ▸ hinv
  | cons c cs ih =>
    simp only [run, bind, Except.bind] at h
    cases h1 : step s c with
    | error e => rw [h1] at h; cases h
    | ok s1 =>
      rw [h1] at h
      exact ih s1 (Inv_step s s1 c hinv h1) h

theorem Inv_reachable (s : Sys) (h : Reachable s) : s.Inv := by
  obtain ⟨cs, hcs⟩ := h
  refine Inv_run cs Sys.init s ⟨Inv_init, fun p hp => by simp [Sys.init] at hp, fun p hp => ?_⟩ hcs
  simp [Sys.init, World.init, Resource.zero] at hp

/-! ### Example states -/

theorem exHeld_reachable : Reachable exHeld := ⟨[.Open 0, .Acquire 0], rfl⟩

theorem exDraining_reachable : Reachable exDraining :=
  ⟨[.Open 0, .Acquire 0, .CloseBegin 0], rfl⟩

theorem exParked_reachable : Reachable exParked :=
  ⟨[.Open 0, .Acquire 0, .CloseBegin 0, .CloseWait 0], rfl⟩

theorem exReleased_reachable : Reachable exReleased :=
  ⟨[.Open 0, .Acquire 0, .Release 0], rfl⟩

theorem exDrained_reachable : Reachable exDrained :=
  ⟨[.Open 0, .Acquire 0, .CloseBegin 0, .Release 0], rfl⟩

/-! ### Acquire -/

/-- C1, counterexample: in the state reached by `Open`, `Acquire` and a `Close` that
has cleared the signal and is parked in `sem.Lock()` waiting for the live
Reference, the signal is absent and one read lock is held, yet `Acquire` does not
return `ResourceClosed`: it waits in `sem.RLock()`. -/
theorem Acquire_parked_counterexample :
    Reachable exParked ∧
    (exParked.world.resources 0).ch = none ∧
    readers exParked.world 0 = 1 ∧
    Resource.Acquire exParked.world 0 = .error Fault.blocked ∧
    ¬ ∃ w', Resource.Acquire exParked.world 0 = .ok (w', none, some Error.resourceClosed) := by
  have h : Resource.Acquire exParked.world 0 = .error Fault.blocked := rfl
  refine ⟨exParked_reachable, rfl, rfl, h, ?_⟩
  rintro ⟨w', hw'⟩
  rw [h] at hw'
  cases hw'

/-- C1, amended: when the open signal of the Resource is absent (and no other call
is inside a critical section of the Resource), `Acquire` waits in `sem.RLock()`
if a `Close` is parked in `sem.Lock()`; otherwise it returns no Reference and the
error `ResourceClosed`, and the memory after the call is the memory before it:
the signal is still absent and the read locks held on `sem` are as many as
before, whatever their number. -/
theorem Acquire_fails_when_closed (w : World) (p : Nat) (hquiet : Quiet w p)
    (hch : (w.resources p).ch = none) :
    Resource.Acquire w p
      = if (w.resources p).sem.pending = true then .error Fault.blocked
        else .ok (w, none, some Error.resourceClosed) := by
  obtain ⟨hmu, hwr⟩ := hquiet
  cases hpd : (w.resources p).sem.pending with
  | true =>
    rcases hr : w.resources p with ⟨⟨n, wr, pd⟩, ⟨l⟩, c0⟩
    rw [hr] at hmu hpd
    simp only at hmu hpd
    subst hmu hpd
    simp [Resource.Acquire, muLock, semRLock, Mutex.Lock, RWMutex.RLock, hr, bind, Except.bind,
      pure, Except.pure]
  | false =>
    have hres : w.resources p
        = ⟨⟨(w.resources p).sem.readers, false, false⟩, ⟨false⟩, none⟩ := by
      rcases hr : w.resources p with ⟨⟨n, wr, pd⟩, ⟨l⟩, c⟩
      rw [hr] at hmu hwr hpd hch
      simp at hmu hwr hpd hch
      simp [hmu, hwr, hpd, hch]
    simp [Resource.Acquire, muLock, semRLock, semRUnlock, muUnlock, Mutex.Lock, Mutex.Unlock,
      RWMutex.RLock, RWMutex.RUnlock, hmu, hwr, hpd, hch, bind, Except.bind, pure,
      Except.pure, World.setRes_setRes]
    rw [← hres]
    exact World.setRes_self w p

theorem Acquire_fails_when_closed_witness :
    readers exDraining.world 0 = 1 ∧
    (exDraining.world.resources 0).ch = none ∧
    (exDraining.world.resources 0).sem.pending = false ∧
    Resource.Acquire exDraining.world 0
      = .ok (exDraining.world, none, some Error.resourceClosed) :=
  ⟨rfl, rfl, rfl, Acquire_fails_when_closed exDraining.world 0 ⟨rfl, rfl⟩ rfl⟩

/-- C2: when the open signal of the Resource is present, `Acquire` returns a nil
error and a new Reference that is live with this Resource as its back-reference;
the read locks held on `sem` and the live References of the Resource both grow
by exactly one, nothing else of the memory changes but the call recorded by the
leak registry, and the signal is the same, so `Opened` is still true. -/
theorem Acquire_open (w : World) (p c : Nat) (hfree : LocksFree w p)
    (hch : (w.resources p).ch = some c) :
    ∃ w', Resource.Acquire w p = .ok (w', some w.refs.length, none) ∧
      w.refs[w.refs.length]? = none ∧
      w'.refs = w.refs ++ [⟨some p, 0⟩] ∧
      liveOn w' w.refs.length p = true ∧
      readers w' p = readers w p + 1 ∧
      liveCount w' p = liveCount w p + 1 ∧
      (w'.resources p).ch = some c ∧
      Resource.Opened w' p = .ok (w', true) ∧
      (∀ q, q ≠ p → w'.resources q = w.resources q) ∧
      w'.chans = w.chans ∧
      w'.live = w.live ++ [LiveCall.track w.refs.length] := by
  refine ⟨_, Acquire_open_eq w p c hfree hch, by simp, rfl, ?_, ?_, ?_, ?_, ?_, ?_, rfl, rfl⟩
  · simp [liveOn]
  · simp [readers]
  · rw [liveCount_push]
    simp
  · simp [hch]
  · rw [Opened_eq]
    · simp [hch]
    · obtain ⟨hmu, -⟩ := hfree
      simpa using hmu
  · intro q hq
    simp [Function.update_noteq hq]

theorem Acquire_open_witness :
    ∃ w', Resource.Acquire exHeld.world 0 = .ok (w', some 1, none) ∧
      exHeld.world.refs[1]? = none ∧
      w'.refs = exHeld.world.refs ++ [⟨some 0, 0⟩] ∧
      liveOn w' 1 0 = true ∧
      readers w' 0 = 1 + 1 ∧
      liveCount w' 0 = 1 + 1 ∧
      (w'.resources 0).ch = some 0 ∧
      Resource.Opened w' 0 = .ok (w', true) ∧
      (∀ q, q ≠ 0 → w'.resources q = exHeld.world.resources q) ∧
      w'.chans = exHeld.world.chans ∧
      w'.live = exHeld.world.live ++ [LiveCall.track 1] :=
  Acquire_open exHeld.world 0 0 ⟨rfl, rfl, rfl⟩ rfl

/-! ### Reference.Release -/

/-- C3: `Release` is idempotent. On a live Reference (whose read lock on the `sem`
of its Resource is held) the first `Release` returns, clears the back-reference,
calls `untrack` once, lowers the read locks held on that `sem` by exactly one and
leaves the other Resources, the other References and the channels alone. On a
Reference whose back-reference is nil `Release` changes nothing at all. In both
cases a second `Release` changes nothing, and `Reference.Close` is `Release` with
a nil error. -/
theorem Release_idempotent (w : World) (r : Nat) (ref : Reference)
    (href : w.refs[r]? = some ref) (hheld : ∀ p, ref.res = some p → 0 < readers w p) :
    ∃ w', Reference.Release w r = .ok w' ∧
      Reference.Close w r = .ok (w', none) ∧
      released w' r = true ∧
      untracks w' r = untracks w r + (if ref.res = none then 0 else 1) ∧
      (∀ q, readers w' q + (if ref.res = some q then 1 else 0) = readers w q) ∧
      (∀ q, ref.res ≠ some q → w'.resources q = w.resources q) ∧
      (∀ a, a ≠ r → w'.refs[a]? = w.refs[a]?) ∧
      w'.chans = w.chans ∧
      (ref.res = none → w' = w) ∧
      Reference.Release w' r = .ok w' := by
  cases hres : ref.res with
  | none =>
    have hrel := Release_released w r ref href hres
    refine ⟨w, hrel, ?_, ?_, ?_, ?_, ?_, ?_, rfl, fun _ => rfl, hrel⟩
    · simp [Reference.Close, hrel, bind, Except.bind, pure, Except.pure]
    · simp [released, href, hres]
    · simp
    · intro q; simp
    · intro q _; rfl
    · intro a _; rfl
  | some p =>
    have hpos := hheld p hres
    have hlt : r < w.refs.length := by
      by_contra hge
      rw [List.getElem?_eq_none (by omega)] at href
      cases href
    have hrel := Release_live w r p ref href hres
    rw [if_neg (by omega)] at hrel
    refine ⟨_, hrel, ?_, ?_, ?_, ?_, ?_, ?_, rfl, ?_, ?_⟩
    · simp [Reference.Close, hrel, bind, Except.bind, pure, Except.pure]
    · simp [released, List.getElem?_set, hlt]
    · simp [untracks, List.count_append]
    · intro q
      simp only [readers] at hpos ⊢
      by_cases hq : q = p
      · subst hq
        simp
        omega
      · have hq' : ¬ p = q := fun e => hq e.symm
        simp [Function.update_noteq hq, hq']
    · intro q hq
      have hq' : q ≠ p := fun e => hq (by rw [e])
      simp [Function.update_noteq hq']
    · intro a ha
      simp only
      rw [List.getElem?_set_ne (fun e => ha e.symm)]
    · intro h
      cases h
    · apply Release_released _ r { ref with res := none }
      · simp [List.getElem?_set, hlt]
      · rfl

theorem Release_idempotent_witness :
    ∃ w', Reference.Release exHeld.world 0 = .ok w' ∧
      Reference.Close exHeld.world 0 = .ok (w', none) ∧
      released w' 0 = true ∧
      untracks w' 0 = untracks exHeld.world 0 + 1 ∧
      (∀ q, readers w' q + (if some 0 = some q then 1 else 0) = readers exHeld.world q) ∧
      (∀ q, some 0 ≠ some q → w'.resources q = exHeld.world.resources q) ∧
      (∀ a, a ≠ 0 → w'.refs[a]? = exHeld.world.refs[a]?) ∧
      w'.chans = exHeld.world.chans ∧
      ((⟨some 0, 0⟩ : Reference).res = none → w' = exHeld.world) ∧
      Reference.Release w' 0 = .ok w' :=
  Release_idempotent exHeld.world 0 ⟨some 0, 0⟩ rfl (fun p hp => by cases hp; decide)

/-! ### Reference.Closing -/

theorem Closing_live (w : World) (r p : Nat) (ref : Reference) (href : w.refs[r]? = some ref)
    (hres : ref.res = some p) : Reference.Closing w r = .ok (w.resources p).ch := by
  simp [Reference.Closing, href, hres]

theorem Closing_nil_res (w : World) (r : Nat) (ref : Reference) (href : w.refs[r]? = some ref)
    (hres : ref.res = none) : Reference.Closing w r = .error .nilDeref := by
  simp [Reference.Closing, href, hres]

/-- C5: a released Reference makes `Closing` panic. After `Open`, `Acquire` and
`Release` the back-reference of the Reference is nil, and `Closing`, which
evaluates `r.res.ch`, dereferences it: the call does not return a channel,
although the comment on `Closing` says that it returns nil for a released
Reference. -/
theorem Closing_released_panics :
    released exReleased.world 0 = true ∧
    Reference.Closing exReleased.world 0 = .error Fault.nilDeref :=
  ⟨rfl, Closing_nil_res exReleased.world 0 ⟨none, 0⟩ rfl rfl⟩

theorem Release_no_bad_unlock (w : World) (hinv : w.Inv) (r : Nat) :
    Reference.Release w r ≠ .error .unlockOfUnlocked := by
  cases href : w.refs[r]? with
  | none =>
    rw [Release_nil w r href]
    simp
  | some ref =>
    cases hres : ref.res with
    | none =>
      rw [Release_released w r ref href hres]
      simp
    | some p =>
      rw [Release_live w r p ref href hres]
      have h1 := liveCount_pos w r p ref href hres
      have h2 := hinv.1 p
      rw [if_neg (by omega)]
      simp

theorem RefsRelease_no_bad_unlock (rs : List Nat) (w : World) (hinv : w.Inv) :
    References.Release w rs ≠ .error .unlockOfUnlocked := by
  induction rs generalizing w with
  | nil => simp [References.Release]
  | cons r rs ih =>
    simp only [References.Release, bind, Except.bind]
    cases h1 : Reference.Release w r with
    | error e =>
      intro h
      injection h with h
      subst h
      exact Release_no_bad_unlock w hinv r h1
    | ok w1 => exact ih w1 (Inv_Release w w1 r hinv h1).1

/-- C10: in every state reachable from zero-valued Resources by `Open`, `Close` (its
two phases, and its wait in `sem.Lock()` between them), `Opened`, `Acquire`, `Reference.Release`, `Reference.Close`,
`References.Release` and `References.Close`, the read locks held on the `sem` of
each Resource are as many as the References whose back-reference is that
Resource; and no `Release`, alone or from a slice, ends in `RUnlock` on a `sem`
without a read lock. -/
theorem counting_invariant (s : Sys) (hs : Reachable s) :
    (∀ p, readers s.world p = liveCount s.world p) ∧
    (∀ r, Reference.Release s.world r ≠ .error .unlockOfUnlocked) ∧
    (∀ rs, References.Release s.world rs ≠ .error .unlockOfUnlocked) := by
  have hinv := (Inv_reachable s hs).1
  exact ⟨hinv.1, Release_no_bad_unlock s.world hinv,
    fun rs => RefsRelease_no_bad_unlock rs s.world hinv⟩

theorem counting_invariant_witness :
    (∀ p, readers exDraining.world p = liveCount exDraining.world p) ∧
    (∀ r, Reference.Release exDraining.world r ≠ .error .unlockOfUnlocked) ∧
    (∀ rs, References.Release exDraining.world rs ≠ .error .unlockOfUnlocked) :=
  counting_invariant exDraining exDraining_reachable

/-! ### Close waits for the References -/

theorem run_keeps_closed (cs : List Call) (s s' : Sys) (p : Nat) (hinv : s.Inv)
    (h : run s cs = .ok s') (hc : Call.Open p ∉ cs) (hd : Drained s.world p) :
    s'.Inv ∧ Drained s'.world p := by
  induction cs generalizing s with
  | nil =>
    simp only [run] at h
    injection h with h
    subst h
    exact ⟨hinv, hd⟩
  | cons c cs ih =>
    simp only [run, bind, Except.bind] at h
    cases h1 : step s c with
    | error e => rw [h1] at h; cases h
    | ok s1 =>
      rw [h1] at h
      simp only [List.mem_cons, not_or] at hc
      obtain ⟨hi1, hk1⟩ := step_spec s s1 c hinv h1
      exact ih s1 hi1 h hc.2 (hk1 p (fun e => hc.1 e.symm) hd)

theorem Acquire_drained (w : World) (p : Nat) (hinv : w.Inv) (hd : Drained w p) :
    Resource.Acquire w p = .ok (w, none, some Error.resourceClosed) :=
  Acquire_closed_eq w p ⟨(hinv.2.1 p).1, (hinv.2.1 p).2, hd.2.1⟩ hd.1

theorem liveOn_false_of_liveCount (w : World) (p : Nat) (h : liveCount w p = 0) (r : Nat) :
    liveOn w r p = false := by
  unfold liveCount at h
  rw [List.countP_eq_zero] at h
  unfold liveOn
  cases href : w.refs[r]? with
  | none => rfl
  | some ref =>
    have := h ref (List.getElem?_mem href)
    simpa using this

/-- C4: `Close` blocks until drained. In every reachable state the step that lets
`Close` return on a Resource can be taken exactly when a `Close` of it is under
way and the Resource has no live Reference; while a live Reference is left the
step waits. In the state right after the return no Reference of the Resource is
live, no read lock is held on its `sem`, its signal is absent, `Acquire` fails
with `ResourceClosed`, and so it does after any further calls as long as none of
them is `Open` of this Resource. -/
theorem Close_blocks_until_drained (s : Sys) (hs : Reachable s) (p : Nat) :
    ((∃ s', step s (.CloseReturn p) = .ok s') ↔ p ∈ s.closing ∧ liveCount s.world p = 0) ∧
    (p ∈ s.closing → 0 < liveCount s.world p → step s (.CloseReturn p) = .error .blocked) ∧
    ∀ s', step s (.CloseReturn p) = .ok s' →
      (∀ r, liveOn s'.world r p = false) ∧
      readers s'.world p = 0 ∧
      (s'.world.resources p).ch = none ∧
      Resource.Acquire s'.world p = .ok (s'.world, none, some Error.resourceClosed) ∧
      ∀ cs s'', Call.Open p ∉ cs → run s' cs = .ok s'' →
        Resource.Acquire s''.world p = .ok (s''.world, none, some Error.resourceClosed) := by
  have hinv := Inv_reachable s hs
  have hcount := hinv.1.1 p
  have hphase := closePhase2_eq s.world p (hinv.1.2.1 p).2
  refine ⟨⟨?_, ?_⟩, ?_, ?_⟩
  · rintro ⟨s', h⟩
    obtain ⟨hp, hr, -, -⟩ := closeReturn_world s s' p hinv h
    exact ⟨hp, by omega⟩
  · rintro ⟨hp, hz⟩
    rw [if_pos (by omega)] at hphase
    exact ⟨_, by simp only [step, hp, if_true, hphase, bind, Except.bind]; rfl⟩
  · intro hp hpos
    rw [if_neg (by omega)] at hphase
    simp only [step, hp, if_true, hphase, bind, Except.bind]
  · intro s' h
    obtain ⟨hp, hr, hrefs, hd⟩ := closeReturn_world s s' p hinv h
    have hinv' := Inv_step s s' _ hinv h
    refine ⟨?_, hd.2.2, hd.1, Acquire_drained s'.world p hinv'.1 hd, ?_⟩
    · intro r
      apply liveOn_false_of_liveCount
      have : liveCount s'.world p = liveCount s.world p := by
        unfold liveCount
        rw [hrefs]
      omega
    · intro cs s'' hcs hrun
      obtain ⟨hinv'', hd''⟩ := run_keeps_closed cs s' s'' p hinv' hrun hcs hd
      exact Acquire_drained s''.world p hinv''.1 hd''

theorem Close_blocks_until_drained_witness :
    ((∃ s', step exDrained (.CloseReturn 0) = .ok s') ↔
      0 ∈ exDrained.closing ∧ liveCount exDrained.world 0 = 0) ∧
    (0 ∈ exDrained.closing → 0 < liveCount exDrained.world 0 →
      step exDrained (.CloseReturn 0) = .error .blocked) ∧
    ∀ s', step exDrained (.CloseReturn 0) = .ok s' →
      (∀ r, liveOn s'.world r 0 = false) ∧
      readers s'.world 0 = 0 ∧
      (s'.world.resources 0).ch = none ∧
      Resource.Acquire s'.world 0 = .ok (s'.world, none, some Error.resourceClosed) ∧
      ∀ cs s'', Call.Open 0 ∉ cs → run s' cs = .ok s'' →
        Resource.Acquire s''.world 0 = .ok (s''.world, none, some Error.resourceClosed) :=
  Close_blocks_until_drained exDrained exDrained_reachable 0

/-! ### References.Release -/

theorem countP_nodup_split (l : List Nat) (hnd : l.Nodup) (f : Nat → Bool) (a : Nat) :
    l.countP f = l.countP (fun x => f x && x != a) + (if a ∈ l ∧ f a = true then 1 else 0) := by
  induction l with
  | nil => simp
  | cons x xs ih =>
    rw [List.nodup_cons] at hnd
    have h := ih hnd.2
    by_cases hx : x = a
    · subst hx
      have h0 : (if x ∈ xs ∧ f x = true then 1 else 0) = 0 := by simp [hnd.1]
      rw [h0] at h
      simp only [List.countP_cons, h]
      cases hf : f x <;> simp
    · have hx' : ¬ a = x := fun e => hx e.symm
      simp only [List.countP_cons, h, List.mem_cons, hx', false_or]
      cases hf : f x
      · simp [hx]
      · simp [hx]
        omega

theorem distinctLive_cons (w w1 : World) (r : Nat) (rs : List Nat) (p : Nat)
    (h1 : ∀ a q, liveOn w1 a q = (liveOn w a q && a != r)) :
    distinctLive w (r :: rs) p = distinctLive w1 rs p + (if liveOn w r p = true then 1 else 0) := by
  have hfun : (fun a => liveOn w1 a p) = (fun a => liveOn w a p && a != r) := by
    funext a
    exact h1 a p
  unfold distinctLive
  rw [hfun]
  have hsplit := countP_nodup_split rs.dedup (List.nodup_dedup rs) (fun a => liveOn w a p) r
  by_cases hr : r ∈ rs
  · rw [List.dedup_cons_of_mem hr, hsplit]
    simp [List.mem_dedup, hr]
  · rw [List.dedup_cons_of_not_mem hr, List.countP_cons, hsplit]
    simp [List.mem_dedup, hr]

theorem Release_core (w : World) (r : Nat) (hvalid : r < w.refs.length)
    (hheld : ∀ p, liveCount w p ≤ readers w p) :
    ∃ w', Reference.Release w r = .ok w' ∧
      (∀ p, liveCount w' p ≤ readers w' p) ∧
      w'.refs.length = w.refs.length ∧
      (∀ a q, liveOn w' a q = (liveOn w a q && a != r)) ∧
      (∀ a, isLive w' a = (isLive w a && a != r)) ∧
      (∀ a, a ≠ r → w'.refs[a]? = w.refs[a]?) ∧
      (∀ p, readers w' p + (if liveOn w r p = true then 1 else 0) = readers w p) ∧
      (∀ a, untracks w' a = untracks w a + (if a = r ∧ isLive w r = true then 1 else 0)) := by
  have href : w.refs[r]? = some (w.refs[r]) := List.getElem?_eq_getElem hvalid
  generalize w.refs[r] = ref at href
  cases hres : ref.res with
  | none =>
    refine ⟨w, Release_released w r ref href hres, hheld, rfl, ?_, ?_, fun _ _ => rfl, ?_, ?_⟩
    · intro a q
      by_cases ha : a = r
      · subst ha
        simp [liveOn, href, hres]
      · simp [ha]
    · intro a
      by_cases ha : a = r
      · subst ha
        simp [isLive, href, hres]
      · simp [ha]
    · intro p
      simp [liveOn, href, hres]
    · intro a
      simp [isLive, href, hres]
  | some p =>
    have hpos := liveCount_pos w r p ref href hres
    have hp := hheld p
    have hrel := Release_live w r p ref href hres
    rw [if_neg (by omega)] at hrel
    refine ⟨_, hrel, ?_, by simp, ?_, ?_, ?_, ?_, ?_⟩
    · intro q
      have h1 := liveCount_clear w w.chans (Function.update w.resources p
        { w.resources p with
          sem := ⟨(w.resources p).sem.readers - 1, (w.resources p).sem.writer,
            (w.resources p).sem.pending⟩ })
        (w.live ++ [LiveCall.untrack r]) r p q ref href hres
      have h2 := hheld q
      simp only [readers] at h2 hp ⊢
      by_cases hq : q = p
      · subst hq
        simp at h1 ⊢
        omega
      · simp [hq] at h1
        simp [Function.update_noteq hq]
        omega
    · intro a q
      by_cases ha : a = r
      · subst ha
        simp [liveOn, List.getElem?_set, hvalid]
      · have ha' : r ≠ a := fun e => ha e.symm
        simp [liveOn, List.getElem?_set_ne ha', ha]
    · intro a
      by_cases ha : a = r
      · subst ha
        simp [isLive, List.getElem?_set, hvalid]
      · have ha' : r ≠ a := fun e => ha e.symm
        simp [isLive, List.getElem?_set_ne ha', ha]
    · intro a ha
      simp only
      rw [List.getElem?_set_ne (fun e => ha e.symm)]
    · intro q
      simp only [readers] at hp ⊢
      by_cases hq : q = p
      · subst hq
        simp [liveOn, href, hres]
        omega
      · have hq' : ¬ p = q := fun e => hq e.symm
        simp [liveOn, href, hres, Function.update_noteq hq, hq']
    · intro a
      by_cases ha : a = r
      · subst ha
        simp [untracks, isLive, href, hres, List.count_append]
      · simp [untracks, List.count_append, ha]

theorem RefsRelease_core (rs : List Nat) (w : World) (hvalid : ∀ r ∈ rs, r < w.refs.length)
    (hheld : ∀ p, liveCount w p ≤ readers w p) :
    ∃ w', References.Release w rs = .ok w' ∧
      (∀ p, liveCount w' p ≤ readers w' p) ∧
      w'.refs.length = w.refs.length ∧
      (∀ a q, liveOn w' a q = (liveOn w a q && !decide (a ∈ rs))) ∧
      (∀ a, isLive w' a = (isLive w a && !decide (a ∈ rs))) ∧
      (∀ a, a ∉ rs → w'.refs[a]? = w.refs[a]?) ∧
      (∀ p, readers w' p + distinctLive w rs p = readers w p) ∧
      (∀ a, untracks w' a = untracks w a + (if a ∈ rs ∧ isLive w a = true then 1 else 0)) := by
  induction rs generalizing w with
  | nil =>
    exact ⟨w, rfl, hheld, rfl, by simp, by simp, fun _ _ => rfl, by simp [distinctLive],
      by simp⟩
  | cons r rs ih =>
    obtain ⟨w1, hrel, hheld1, hlen1, hon1, hlive1, hrefs1, hrd1, hun1⟩ :=
      Release_core w r (hvalid r (by simp)) hheld
    obtain ⟨w2, hrel2, hheld2, hlen2, hon2, hlive2, hrefs2, hrd2, hun2⟩ :=
      ih w1 (fun a ha => by rw [hlen1]; exact hvalid a (by simp [ha])) hheld1
    refine ⟨w2, ?_, hheld2, hlen2.trans hlen1, ?_, ?_, ?_, ?_, ?_⟩
    · simp [References.Release, hrel, hrel2, bind, Except.bind]
    · intro a q
      rw [hon2, hon1]
      by_cases ha : a = r <;> by_cases ha2 : a ∈ rs <;> simp [ha, ha2]
    · intro a
      rw [hlive2, hlive1]
      by_cases ha : a = r <;> by_cases ha2 : a ∈ rs <;> simp [ha, ha2]
    · intro a ha
      simp only [List.mem_cons, not_or] at ha
      rw [hrefs2 a ha.2, hrefs1 a ha.1]
    · intro p
      have h1 := hrd1 p
      have h2 := hrd2 p
      rw [distinctLive_cons w w1 r rs p hon1]
      omega
    · intro a
      rw [hun2, hun1, hlive1]
      by_cases ha : a = r <;> by_cases ha2 : a ∈ rs <;> simp [ha, ha2]

theorem RefsRelease_of_released (rs : List Nat) (w : World)
    (h : ∀ r ∈ rs, released w r = true) : References.Release w rs = .ok w := by
  induction rs with
  | nil => rfl
  | cons r rs ih =>
    have hr := h r (by simp)
    unfold released at hr
    cases href : w.refs[r]? with
    | none => simp [href] at hr
    | some ref =>
      simp [href] at hr
      simp only [References.Release, Release_released w r ref href hr, bind, Except.bind]
      exact ih (fun a ha => h a (by simp [ha]))

/-- C6: group release. For a slice whose members all point to References (with the
read locks of the live References held), `References.Release` returns and leaves
every member released and every other Reference as it was; on each Resource the
read locks held on `sem` go down by exactly the number of distinct members that
were live on it; `untrack` is called once for each distinct live member and for
nothing else; a second `Release` of the slice changes nothing. `References.Close`
is the same with a nil error. -/
theorem References_Release_all (w : World) (rs : List Nat)
    (hvalid : ∀ r ∈ rs, r < w.refs.length) (hheld : ∀ p, liveCount w p ≤ readers w p) :
    ∃ w', References.Release w rs = .ok w' ∧
      References.Close w rs = .ok (w', none) ∧
      (∀ r ∈ rs, released w' r = true) ∧
      (∀ r, r ∉ rs → w'.refs[r]? = w.refs[r]?) ∧
      (∀ p, readers w' p + distinctLive w rs p = readers w p) ∧
      (∀ r, untracks w' r = untracks w r + (if r ∈ rs ∧ isLive w r = true then 1 else 0)) ∧
      References.Release w' rs = .ok w' := by
  obtain ⟨w', hrel, -, hlen, -, hlive, hrefs, hrd, hun⟩ := RefsRelease_core rs w hvalid hheld
  have hreleased : ∀ r ∈ rs, released w' r = true := by
    intro r hr
    have h1 := hlive r
    have hlt : r < w'.refs.length := by rw [hlen]; exact hvalid r hr
    have href : w'.refs[r]? = some (w'.refs[r]) := List.getElem?_eq_getElem hlt
    generalize w'.refs[r] = ref at href
    simp [isLive, href, hr] at h1
    simp [released, href, h1]
  refine ⟨w', hrel, ?_, hreleased, hrefs, hrd, hun, RefsRelease_of_released rs w' hreleased⟩
  simp [References.Close, hrel, bind, Except.bind, pure, Except.pure]

theorem exGroup_reachable : Reachable exGroup :=
  ⟨[.Open 0, .Open 1, .Acquire 0, .Acquire 1, .Acquire 0, .Release 0], rfl⟩

theorem References_Release_all_witness :
    (distinctLive exGroup.world [0, 1, 1, 2] 0 = 1 ∧
      distinctLive exGroup.world [0, 1, 1, 2] 1 = 1) ∧
    ∃ w', References.Release exGroup.world [0, 1, 1, 2] = .ok w' ∧
      References.Close exGroup.world [0, 1, 1, 2] = .ok (w', none) ∧
      (∀ r ∈ [0, 1, 1, 2], released w' r = true) ∧
      (∀ r, r ∉ [0, 1, 1, 2] → w'.refs[r]? = exGroup.world.refs[r]?) ∧
      (∀ p, readers w' p + distinctLive exGroup.world [0, 1, 1, 2] p
        = readers exGroup.world p) ∧
      (∀ r, untracks w' r = untracks exGroup.world r
        + (if r ∈ [0, 1, 1, 2] ∧ isLive exGroup.world r = true then 1 else 0)) ∧
      References.Release w' [0, 1, 1, 2] = .ok w' :=
  ⟨⟨by decide, by decide⟩,
    References_Release_all exGroup.world [0, 1, 1, 2] (by decide)
      (fun p => le_of_eq ((Inv_reachable exGroup exGroup_reachable).1.1 p).symm)⟩

/-! ### Concurrent Release calls -/

theorem releaseSwap_live (w : World) (r p : Nat) (ref : Reference) (h : w.refs[r]? = some ref)
    (hres : ref.res = some p) (hpos : 0 < readers w p) :
    releaseSwap w r (some p) = .ok (⟨w.chans,
        Function.update w.resources p
          { w.resources p with sem := ⟨(w.resources p).sem.readers - 1, (w.resources p).sem.writer,
            (w.resources p).sem.pending⟩ },
        w.refs.set r { ref with res := none }, w.live ++ [LiveCall.untrack r]⟩, true) := by
  have hn' : ¬ (w.resources p).sem.readers = 0 := by
    simp only [readers] at hpos
    omega
  simp [releaseSwap, casRes, liveUntrack, semRUnlock, RWMutex.RUnlock, h, hres, hn', bind,
    Except.bind, pure, Except.pure, World.setRes]

theorem releaseSwap_released (w : World) (r : Nat) (old : Option Nat) (ref : Reference)
    (h : w.refs[r]? = some ref) (hres : ref.res = none) :
    releaseSwap w r old = .ok (w, false) := by
  cases old with
  | none => rfl
  | some q => simp [releaseSwap, casRes, h, hres, bind, Except.bind, pure, Except.pure]

theorem count_set_keep (l : List PC) (t : Nat) (a b x : PC) (h : l[t]? = some a)
    (ha : a ≠ x) (hb : b ≠ x) : (l.set t b).count x = l.count x := by
  have := countP_set_add (fun y => y == x) l t a b h
  simp only [beq_iff_eq, ha, hb, if_false, Nat.add_zero] at this
  exact this

theorem rankAt_set (w w' : World) (pcs : List PC) (t u : Nat) (a b : PC) (h : pcs[t]? = some a)
    (hb : b.rank = min 2 (a.rank + 1)) :
    (Race.mk w' (pcs.set t b)).rankAt u
      = if u = t then min 2 ((Race.mk w pcs).rankAt u + 1) else (Race.mk w pcs).rankAt u := by
  have hlt : t < pcs.length := by
    by_contra hge
    rw [List.getElem?_eq_none (by omega)] at h
    cases h
  by_cases hu : u = t
  · subst hu
    simp [Race.rankAt, List.getElem?_set, hlt, h, hb]
  · have hu' : t ≠ u := fun e => hu e.symm
    simp [Race.rankAt, List.getElem?_set_ne hu', hu]

theorem raceStep_inv (w0 : World) (r p n : Nat) (ref : Reference)
    (href : w0.refs[r]? = some ref) (hres : ref.res = some p) (hpos : 0 < readers w0 p)
    (w1 : World) (hw1 : releaseSwap w0 r (some p) = .ok (w1, true))
    (ref1 : Reference) (href1 : w1.refs[r]? = some ref1) (hres1 : ref1.res = none)
    (c : Race) (t : Nat) (hinv : RaceInv w0 w1 p n c) :
    ∃ c', raceStep r c t = .ok c' ∧ RaceInv w0 w1 p n c' ∧
      ∀ u, c'.rankAt u = if u = t then min 2 (c.rankAt u + 1) else c.rankAt u := by
  obtain ⟨w, pcs⟩ := c
  obtain ⟨hlen, hphase⟩ := hinv
  simp only at hlen
  cases hpc : pcs[t]? with
  | none =>
    refine ⟨⟨w, pcs⟩, by simp [raceStep, hpc], ⟨hlen, hphase⟩, ?_⟩
    intro u
    by_cases hu : u = t
    · subst hu
      simp [Race.rankAt, hpc]
    · simp [hu]
  | some pc =>
    cases pc with
    | start =>
      rcases hphase with ⟨hw, hall⟩ | ⟨hw, hsw⟩
      · simp only at hw
        subst hw
        refine ⟨⟨w, pcs.set t (.loaded (some p))⟩, ?_, ⟨by simpa using hlen, Or.inl ⟨rfl, ?_⟩⟩, ?_⟩
        · simp [raceStep, hpc, loadRes, href, hres, bind, Except.bind, pure, Except.pure]
        · intro pc hmem
          rcases List.mem_or_eq_of_mem_set hmem with h | h
          · exact hall pc h
          · exact Or.inr h
        · intro u
          exact rankAt_set w w pcs t u _ _ hpc (by simp [PC.rank])
      · simp only at hw
        subst hw
        refine ⟨⟨w, pcs.set t (.loaded none)⟩, ?_, ⟨by simpa using hlen, Or.inr ⟨rfl, ?_⟩⟩, ?_⟩
        · simp [raceStep, hpc, loadRes, href1, hres1, bind, Except.bind, pure, Except.pure]
        · simp only [Race.swaps] at hsw ⊢
          rw [count_set_keep pcs t _ _ _ hpc (by simp) (by simp)]
          exact hsw
        · intro u
          exact rankAt_set w w pcs t u _ _ hpc (by simp [PC.rank])
    | loaded old =>
      rcases hphase with ⟨hw, hall⟩ | ⟨hw, hsw⟩
      · simp only at hw
        subst hw
        have hold : old = some p := by
          rcases hall _ (List.getElem?_mem hpc) with h | h
          · cases h
          · injection h
        subst hold
        refine ⟨⟨w1, pcs.set t (.done true)⟩, ?_, ⟨by simpa using hlen, Or.inr ⟨rfl, ?_⟩⟩, ?_⟩
        · simp [raceStep, hpc, hw1, bind, Except.bind, pure, Except.pure]
        · have hzero : pcs.count (PC.done true) = 0 := by
            rw [List.count_eq_zero]
            intro hmem
            rcases hall _ hmem with h | h <;> cases h
          have := countP_set_add (fun y => y == PC.done true) pcs t _ (PC.done true) hpc
          simp only [beq_iff_eq, if_true] at this
          simp only [Race.swaps, List.count]
          simp only [List.count] at hzero
          simp at this
          omega
        · intro u
          exact rankAt_set w w1 pcs t u _ _ hpc (by simp [PC.rank])
      · simp only at hw
        subst hw
        refine ⟨⟨w, pcs.set t (.done false)⟩, ?_, ⟨by simpa using hlen, Or.inr ⟨rfl, ?_⟩⟩, ?_⟩
        · simp [raceStep, hpc, releaseSwap_released w r old ref1 href1 hres1, bind, Except.bind,
            pure, Except.pure]
        · simp only [Race.swaps] at hsw ⊢
          rw [count_set_keep pcs t _ _ _ hpc (by simp) (by simp)]
          exact hsw
        · intro u
          exact rankAt_set w w pcs t u _ _ hpc (by simp [PC.rank])
    | done b =>
      refine ⟨⟨w, pcs⟩, by simp [raceStep, hpc], ⟨hlen, hphase⟩, ?_⟩
      intro u
      by_cases hu : u = t
      · subst hu
        simp [Race.rankAt, hpc, PC.rank]
      · simp [hu]

theorem raceRun_inv (w0 : World) (r p n : Nat) (ref : Reference)
    (href : w0.refs[r]? = some ref) (hres : ref.res = some p) (hpos : 0 < readers w0 p)
    (w1 : World) (hw1 : releaseSwap w0 r (some p) = .ok (w1, true))
    (ref1 : Reference) (href1 : w1.refs[r]? = some ref1) (hres1 : ref1.res = none)
    (sched : List Nat) (c : Race) (hinv : RaceInv w0 w1 p n c) :
    ∃ c', raceRun r c sched = .ok c' ∧ RaceInv w0 w1 p n c' ∧
      ∀ u, c'.rankAt u = min 2 (c.rankAt u + sched.count u) := by
  induction sched generalizing c with
  | nil =>
    refine ⟨c, rfl, hinv, fun u => ?_⟩
    have : c.rankAt u ≤ 2 := by
      unfold Race.rankAt
      split
      · rename_i pc _
        cases pc <;> simp [PC.rank]
      · exact le_refl 2
    simp
    omega
  | cons t ts ih =>
    obtain ⟨c1, hstep, hinv1, hrank1⟩ :=
      raceStep_inv w0 r p n ref href hres hpos w1 hw1 ref1 href1 hres1 c t hinv
    obtain ⟨c2, hrun, hinv2, hrank2⟩ := ih c1 hinv1
    refine ⟨c2, by simp [raceRun, hstep, hrun, bind, Except.bind], hinv2, fun u => ?_⟩
    rw [hrank2 u, hrank1 u, List.count_cons]
    by_cases hu : u = t
    · subst hu
      simp
      omega
    · have hu' : ¬ t = u := fun e => hu e.symm
      simp [hu, hu']

theorem returned_of_ranks (c : Race) (h : ∀ u, u < c.pcs.length → c.rankAt u = 2) :
    c.returned = c.pcs.length := by
  unfold Race.returned
  rw [List.countP_eq_length]
  intro pc hmem
  obtain ⟨u, hlt, hu⟩ := List.getElem_of_mem hmem
  have h2 := h u hlt
  simp only [Race.rankAt, List.getElem?_eq_getElem hlt, hu] at h2
  cases pc <;> simp [PC.rank] at h2 ⊢

theorem release_once_memory (w : World) (r p : Nat) (ref : Reference)
    (href : w.refs[r]? = some ref) (hres : ref.res = some p) (hheld : 0 < readers w p) :
    ∃ w1, releaseSwap w r (some p) = .ok (w1, true) ∧
      Reference.Release w r = .ok w1 ∧
      w1.refs[r]? = some { ref with res := none } ∧
      released w1 r = true ∧
      untracks w1 r = untracks w r + 1 ∧
      readers w1 p + 1 = readers w p := by
  have hlt : r < w.refs.length := by
    by_contra hge
    rw [List.getElem?_eq_none (by omega)] at href
    cases href
  have hrel := Release_live w r p ref href hres
  rw [if_neg (by omega)] at hrel
  refine ⟨_, releaseSwap_live w r p ref href hres hheld, hrel, ?_, ?_, ?_, ?_⟩
  · simp [List.getElem?_set, hlt]
  · simp [released, List.getElem?_set, hlt]
  · simp [untracks, List.count_append]
  · simp only [readers] at hheld ⊢
    simp
    omega

/-- C7: exactly-once release under concurrency. `n` callers, `n` at least 1, each
run `Release` on one live Reference in its two atomic steps, interleaved in any
order in which every caller gets its two steps. Then every step returns, all `n`
callers return, exactly one compare-and-swap succeeds, and the memory at the end
is the memory after one sequential `Release`: the Reference is released,
`untrack` was called once, and the read locks held on the `sem` of the owning
Resource went down by one. -/
theorem Release_race_exactly_once (n : Nat) (hn : 1 ≤ n) (w : World) (r p : Nat)
    (ref : Reference) (href : w.refs[r]? = some ref) (hres : ref.res = some p)
    (hheld : 0 < readers w p) (sched : List Nat) (hsched : ∀ t, t < n → 2 ≤ sched.count t) :
    ∃ c, raceRun r (Race.init w n) sched = .ok c ∧
      c.returned = n ∧
      c.swaps = 1 ∧
      Reference.Release w r = .ok c.world ∧
      released c.world r = true ∧
      untracks c.world r = untracks w r + 1 ∧
      readers c.world p + 1 = readers w p := by
  obtain ⟨w1, hw1, hrel, href1, hreleased, huntr, hrd⟩ :=
    release_once_memory w r p ref href hres hheld
  have hinit : RaceInv w w1 p n (Race.init w n) :=
    ⟨by simp [Race.init], Or.inl ⟨rfl, fun pc hmem => by
      simp [Race.init] at hmem
      exact Or.inl hmem.2⟩⟩
  obtain ⟨c, hrun, ⟨hlen, hphase⟩, hrank⟩ :=
    raceRun_inv w r p n ref href hres hheld w1 hw1 { ref with res := none } href1 rfl sched
      (Race.init w n) hinit
  have hranks : ∀ u, u < c.pcs.length → c.rankAt u = 2 := by
    intro u hu
    rw [hrank u]
    have := hsched u (by omega)
    omega
  have hworld : c.world = w1 ∧ c.swaps = 1 := by
    rcases hphase with ⟨-, hall⟩ | hB
    · exfalso
      have h0 := hranks 0 (by omega)
      have hlt0 : 0 < c.pcs.length := by omega
      have hmem : c.pcs[0] ∈ c.pcs := List.getElem_mem hlt0
      simp only [Race.rankAt, List.getElem?_eq_getElem hlt0] at h0
      rcases hall _ hmem with h | h <;> rw [h] at h0 <;> simp [PC.rank] at h0
    · exact hB
  obtain ⟨hwd, hsw⟩ := hworld
  rw [← hwd] at hrel hreleased huntr hrd
  exact ⟨c, hrun, by rw [returned_of_ranks c hranks, hlen], hsw, hrel, hreleased, huntr, hrd⟩

theorem Release_race_exactly_once_witness :
    ∃ c, raceRun 0 (Race.init exHeld.world 3) [2, 0, 1, 1, 0, 2] = .ok c ∧
      c.returned = 3 ∧
      c.swaps = 1 ∧
      Reference.Release exHeld.world 0 = .ok c.world ∧
      released c.world 0 = true ∧
      untracks c.world 0 = untracks exHeld.world 0 + 1 ∧
      readers c.world 0 + 1 = readers exHeld.world 0 :=
  Release_race_exactly_once 3 (by decide) exHeld.world 0 0 ⟨some 0, 0⟩ rfl rfl (by decide)
    [2, 0, 1, 1, 0, 2] (by decide)

/-! ### Open/close cycles -/

theorem acquireN_open (n : Nat) (w : World) (p c : Nat) (hfree : LocksFree w p)
    (hch : (w.resources p).ch = some c) :
    ∃ w', acquireN w p n
        = .ok (w', (List.range' w.refs.length n).map (fun r => (some r, none))) ∧
      w'.refs = w.refs ++ List.replicate n ⟨some p, 0⟩ ∧
      w'.chans = w.chans ∧
      w'.resources p
        = { w.resources p with sem := ⟨(w.resources p).sem.readers + n, false, false⟩ } := by
  induction n generalizing w with
  | zero =>
    refine ⟨w, rfl, by simp, rfl, ?_⟩
    obtain ⟨-, hwr⟩ := hfree
    rcases hr : w.resources p with ⟨⟨k, wr⟩, mu, ch⟩
    rw [hr] at hwr
    simp at hwr
    simp [hwr]
  | succ n ih =>
    have hacq := Acquire_open_eq w p c hfree hch
    obtain ⟨w2, h2, hrefs2, hchans2, hres2⟩ := ih
      (⟨w.chans, Function.update w.resources p
          { w.resources p with sem := ⟨(w.resources p).sem.readers + 1, false, false⟩ },
        w.refs ++ [⟨some p, 0⟩], w.live ++ [LiveCall.track w.refs.length]⟩ : World)
      ⟨by simpa using hfree.1, by simp⟩ (by simpa using hch)
    refine ⟨w2, ?_, ?_, hchans2, ?_⟩
    · simp only [acquireN, hacq, bind, Except.bind, pure, Except.pure]
      rw [h2]
      simp [List.range'_succ]
    · rw [hrefs2]
      simp [List.replicate_succ]
    · rw [hres2]
      simp
      omega

theorem RefsRelease_fresh (n : Nat) (w : World) (p base : Nat)
    (hrefs : ∀ k, k < n → w.refs[base + k]? = some ⟨some p, 0⟩) (hrd : n ≤ readers w p) :
    ∃ w', References.Release w (List.range' base n) = .ok w' ∧
      w'.chans = w.chans ∧
      w'.refs.length = w.refs.length ∧
      w'.resources p = { w.resources p with
        sem := ⟨(w.resources p).sem.readers - n, (w.resources p).sem.writer,
          (w.resources p).sem.pending⟩ } := by
  induction n generalizing w base with
  | zero => exact ⟨w, rfl, rfl, rfl, by simp⟩
  | succ n ih =>
    have h0 := hrefs 0 (by omega)
    simp only [Nat.add_zero] at h0
    have hrel := Release_live w base p ⟨some p, 0⟩ h0 rfl
    rw [if_neg (by omega)] at hrel
    obtain ⟨w2, h2, hchans2, hlen2, hres2⟩ := ih
      (⟨w.chans, Function.update w.resources p
          { w.resources p with
            sem := ⟨(w.resources p).sem.readers - 1, (w.resources p).sem.writer,
            (w.resources p).sem.pending⟩ },
        w.refs.set base ⟨none, 0⟩, w.live ++ [LiveCall.untrack base]⟩ : World) (base + 1)
      (fun k hk => by
        have := hrefs (k + 1) (by omega)
        simp only
        rw [List.getElem?_set_ne (by omega)]
        rw [← this]
        congr 1
        omega)
      (by simp only [readers] at hrd ⊢; simp; omega)
    refine ⟨w2, ?_, hchans2, ?_, ?_⟩
    · simp only [List.range'_succ, References.Release, hrel, bind, Except.bind]
      exact h2
    · rw [hlen2]
      simp
    · rw [hres2]
      simp
      omega

theorem cycle_spec (w : World) (p n : Nat) (hfree : LocksFree w p)
    (hch : (w.resources p).ch = none) (hrd : readers w p = 0) :
    ∃ w3 w6, openAcquire w p n
        = .ok (w3, true, (List.range' w.refs.length n).map (fun r => (some r, none))) ∧
      readers w3 p = n ∧
      (0 < n → Resource.Close w3 p = .error .blocked) ∧
      cycle w p n
        = .ok (w6, ⟨true, (List.range' w.refs.length n).map (fun r => (some r, none)), false⟩) ∧
      w6.resources p = w.resources p := by
  obtain ⟨hmu, hwr, hpd⟩ := hfree
  rcases hr : w.resources p with ⟨⟨k, wr, pd⟩, ⟨l⟩, ch⟩
  simp only [readers] at hrd
  rw [hr] at hmu hwr hpd hch hrd
  simp only at hmu hwr hpd hch hrd
  subst hmu hwr hpd hch hrd
  -- Open
  have hopen := Open_eq w p (by simp [hr])
  rw [hr] at hopen
  generalize hw1 : (⟨w.chans ++ [false],
    Function.update w.resources p { (⟨⟨0, false, false⟩, ⟨false⟩, none⟩ : Resource) with
      ch := some w.chans.length }, w.refs, w.live⟩ : World) = w1 at hopen
  have hres1 : w1.resources p = ⟨⟨0, false, false⟩, ⟨false⟩, some w.chans.length⟩ := by
    rw [← hw1]; simp
  have hrefs1 : w1.refs = w.refs := by rw [← hw1]
  have hchans1 : w1.chans = w.chans ++ [false] := by rw [← hw1]
  have hfree1 : LocksFree w1 p := ⟨by simp [hres1], by simp [hres1], by simp [hres1]⟩
  -- Opened
  have hopened := Opened_eq w1 p hfree1.1
  rw [hres1] at hopened
  -- Acquire, n times
  obtain ⟨w3, hacq, hrefs3, hchans3, hres3⟩ :=
    acquireN_open n w1 p w.chans.length hfree1 (by simp [hres1])
  rw [hres1] at hres3
  rw [hrefs1] at hacq hrefs3
  have hoa : openAcquire w p n
      = .ok (w3, true, (List.range' w.refs.length n).map (fun r => (some r, none))) := by
    simp [openAcquire, hopen, hopened, hacq, bind, Except.bind, pure, Except.pure]
  have hfree3 : LocksFree w3 p := ⟨by simp [hres3], by simp [hres3], by simp [hres3]⟩
  have hchan3 : w3.chans[w.chans.length]? = some false := by
    rw [hchans3, hchans1]; simp
  -- Close while the References are out
  have hblocked : 0 < n → Resource.Close w3 p = .error .blocked := by
    intro hn
    have h1 := closePhase1_some w3 p w.chans.length hfree3.1 (by simp [hres3]) hchan3
    have h2 := closePhase2_free (⟨w3.chans.set w.chans.length true,
      Function.update w3.resources p { w3.resources p with ch := none }, w3.refs, w3.live⟩ : World)
      p ⟨by simp [hres3], by simp [hres3], by simp [hres3]⟩
    rw [if_neg (by simp [readers, hres3]; omega)] at h2
    simp [Resource.Close, h1, h2, bind, Except.bind]
  -- Release of the References
  obtain ⟨w4, hrel, hchans4, -, hres4⟩ := RefsRelease_fresh n w3 p w.refs.length
    (fun k hk => by
      rw [hrefs3, List.getElem?_append_right (by omega)]
      simp [List.getElem?_replicate, hk])
    (by simp [readers, hres3])
  rw [hres3] at hres4
  simp only [Nat.zero_add, Nat.sub_self] at hres4
  have hfm : ((List.range' w.refs.length n).map
      (fun r => ((some r, none) : Option Nat × Option Error))).filterMap (fun x => x.1)
      = List.range' w.refs.length n := by
    rw [List.filterMap_map]
    exact List.filterMap_some _
  -- Close
  have hfree4 : LocksFree w4 p := ⟨by simp [hres4], by simp [hres4], by simp [hres4]⟩
  have hc1 := closePhase1_some w4 p w.chans.length hfree4.1 (by simp [hres4])
    (by rw [hchans4]; exact hchan3)
  generalize hw5 : (⟨w4.chans.set w.chans.length true,
    Function.update w4.resources p { w4.resources p with ch := none }, w4.refs, w4.live⟩
    : World) = w5 at hc1
  have hres5 : w5.resources p = ⟨⟨0, false, false⟩, ⟨false⟩, none⟩ := by
    rw [← hw5]; simp [hres4]
  have hfree5 : LocksFree w5 p := ⟨by simp [hres5], by simp [hres5], by simp [hres5]⟩
  have hc2 := closePhase2_free w5 p hfree5
  rw [if_pos (by simp [readers, hres5])] at hc2
  have hclose : Resource.Close w4 p = .ok w5 := by
    simp [Resource.Close, hc1, hc2, bind, Except.bind]
  have hopened5 := Opened_eq w5 p hfree5.1
  rw [hres5] at hopened5
  refine ⟨w3, w5, hoa, by simp [readers, hres3], hblocked, ?_, hres5⟩
  simp [cycle, hoa, hfm, hrel, hclose, hopened5, bind, Except.bind, pure, Except.pure]

/-- C9: idempotent re-open. From a closed Resource with no read lock held on `sem`,
the cycle `Open`, `n` calls of `Acquire`, release of the `n` References, `Close`
returns and leaves the Resource equal to what it was at the start; a second
cycle with `m` calls of `Acquire` then does the same. In each cycle `Opened` is
true after `Open` and false after `Close`, every `Acquire` inside returns a new
Reference and a nil error, and `Acquire` fails with `ResourceClosed` before the
first cycle, between the two and after the second. In the second cycle the read
locks held when the `m` References are out are exactly `m`: `Close` waits while
one of them is out and returns once they are released. -/
theorem reopen_cycle (w : World) (p n m : Nat) (hfree : LocksFree w p)
    (hch : (w.resources p).ch = none) (hrd : readers w p = 0) :
    ∃ w1 w2 w3 : World,
      cycle w p n
        = .ok (w1, ⟨true, (List.range' w.refs.length n).map (fun r => (some r, none)), false⟩) ∧
      w1.resources p = w.resources p ∧
      cycle w1 p m
        = .ok (w2, ⟨true, (List.range' w1.refs.length m).map (fun r => (some r, none)), false⟩) ∧
      w2.resources p = w.resources p ∧
      Resource.Acquire w p = .ok (w, none, some Error.resourceClosed) ∧
      Resource.Acquire w1 p = .ok (w1, none, some Error.resourceClosed) ∧
      Resource.Acquire w2 p = .ok (w2, none, some Error.resourceClosed) ∧
      openAcquire w1 p m
        = .ok (w3, true, (List.range' w1.refs.length m).map (fun r => (some r, none))) ∧
      readers w3 p = m ∧
      (0 < m → Resource.Close w3 p = .error .blocked) := by
  obtain ⟨-, w1, -, -, -, hc1, hres1⟩ := cycle_spec w p n hfree hch hrd
  have hfree1 : LocksFree w1 p := by
    unfold LocksFree
    rw [hres1]
    exact hfree
  have hch1 : (w1.resources p).ch = none := by rw [hres1]; exact hch
  have hrd1 : readers w1 p = 0 := by
    unfold readers
    rw [hres1]
    exact hrd
  obtain ⟨w3, w2, hoa, hrd3, hblocked, hc2, hres2⟩ := cycle_spec w1 p m hfree1 hch1 hrd1
  have hfree2 : LocksFree w2 p := by
    unfold LocksFree
    rw [hres2, hres1]
    exact hfree
  have hch2 : (w2.resources p).ch = none := by rw [hres2]; exact hch1
  exact ⟨w1, w2, w3, hc1, hres1, hc2, hres2.trans hres1, Acquire_closed_eq w p hfree hch,
    Acquire_closed_eq w1 p hfree1 hch1, Acquire_closed_eq w2 p hfree2 hch2, hoa, hrd3, hblocked⟩

theorem reopen_cycle_witness :
    ∃ w1 w2 w3 : World,
      cycle World.init 0 2 = .ok (w1, ⟨true, [(some 0, none), (some 1, none)], false⟩) ∧
      w1.resources 0 = World.init.resources 0 ∧
      cycle w1 0 3
        = .ok (w2, ⟨true, (List.range' w1.refs.length 3).map (fun r => (some r, none)), false⟩) ∧
      w2.resources 0 = World.init.resources 0 ∧
      Resource.Acquire World.init 0 = .ok (World.init, none, some Error.resourceClosed) ∧
      Resource.Acquire w1 0 = .ok (w1, none, some Error.resourceClosed) ∧
      Resource.Acquire w2 0 = .ok (w2, none, some Error.resourceClosed) ∧
      openAcquire w1 0 3
        = .ok (w3, true, (List.range' w1.refs.length 3).map (fun r => (some r, none))) ∧
      readers w3 0 = 3 ∧
      (0 < 3 → Resource.Close w3 0 = .error .blocked) :=
  reopen_cycle World.init 0 2 3 ⟨rfl, rfl, rfl⟩ rfl rfl

end Lifecycle
